import Mathlib

/-!
GrailGUI: steganographic codec, secret repository and descriptive statistics.

A shallow embedding of `src/repo/stegano/steganography.cc` (class
`SteganographicImage`: its constructor, `hide`, `recover`) and of
`src/repo/Repository.cc` (class `GrailRepository`: its constructor,
`generateKey`, `deleteKey`, `get`, `destroy`, `scramble`, `unlock`,
`proveIdentity`, `backupToCloud`, `restoreFromCloud`) and of
`src/xp/Stats.hh` (class `Stats1D`: its constructor, `updateData`,
`getModes`, `getSummary`, `getQuantile`, `setQuantileAlgorithm`), followed by
theorems about the embedded code.

Conventions of the embedding.

* A byte (`uint8_t`, `char`) is a natural number below 256.  The quantities of
  type `int` and `size_t` (`start`, `stride`, `s`, the loop index `i`) are
  naturals; they are taken to stay in the range of their C++ types.  The one
  place where the source converts between integer types of different range,
  the `uint32_t` arguments of `restoreFromCloud` given to the `int` parameters
  of the constructor, is embedded with integers (`toInt32`, `recoverLoopInt`).
* `rgb` is a raw pointer in the source.  The memory it points into is a total
  map from offsets to bytes, so a store at an offset at or past the bound `s`
  is recorded like any other store.  The carrier is the part of that memory
  below `s`, the bound both loops of the source compare the index with.
* A loop of the source is a function recursive on a fuel argument; it
  returns `none` only when the fuel runs out.
* Code the sources call and do not contain (the cipher `AESEncDec`, the cloud
  client, the random engine of the standard library, the methods
  `hide_secret` and `write_webp`) is a parameter of the method that calls it.
-/

namespace GrailGUI

/-! ## `SteganographicImage` -/

/-- The fields of `SteganographicImage` that `hide` and `recover` use: the
parameters `start` and `stride`, the bound `s` and the memory behind the
pointer `rgb`. -/
structure SteganographicImage where
  start : Nat
  stride : Nat
  s : Nat
  rgb : Nat → Nat

/-- The C library function `strlen`: the number of characters before the
first zero character.  A C string is given by the list of the characters
stored from the pointer on; the end of the list reads as the terminator. -/
def strlen : List Nat → Nat
  | [] => 0
  | c :: rest => if c = 0 then 0 else strlen rest + 1

/-- The expression `*str`: the character under the pointer, the terminator
when the list is used up. -/
def deref (str : List Nat) : Nat := str.headD 0

/-- The assignment `rgb[i] = v`. -/
def store (rgb : Nat → Nat) (i v : Nat) : Nat → Nat :=
  fun k => if k = i then v else rgb k

/-- The first loop of `hide`:
`for (i = start; i < s && c; i += stride) { rgb[i] = c >> (7 - bit) & 1 ?
rgb[i] | 1 : rgb[i] & ~1; if (++bit == 8) bit = 0, c = *str++; }`.
The result is the memory, the index `i` and the character `c` at the exit of
the loop. -/
def hideLoop (stride s : Nat) :
    Nat → (Nat → Nat) → Nat → Nat → Nat → List Nat → Option ((Nat → Nat) × Nat × Nat)
  | 0, _, _, _, _, _ => none
  | fuel + 1, rgb, i, bit, c, str =>
    if i < s ∧ c ≠ 0 then
      let rgb1 := store rgb i (if (c >>> (7 - bit)) &&& 1 ≠ 0 then rgb i ||| 1 else rgb i &&& 254)
      if bit + 1 = 8 then hideLoop stride s fuel rgb1 (i + stride) 0 (deref str) str.tail
      else hideLoop stride s fuel rgb1 (i + stride) (bit + 1) c str
    else some (rgb, i, c)

/-- The second loop of `hide`:
`for (int j = 0; i < s || j == 8; i += stride, ++j) rgb[i] &= ~1;`. -/
def sentinelLoop (stride s : Nat) : Nat → (Nat → Nat) → Nat → Nat → Option (Nat → Nat)
  | 0, _, _, _ => none
  | fuel + 1, rgb, i, j =>
    if i < s ∨ j = 8 then sentinelLoop stride s fuel (store rgb i (rgb i &&& 254)) (i + stride) (j + 1)
    else some rgb

/-- What a call of `hide` leaves behind: whether it threw its exception, and
the state of the object. -/
structure HideResult where
  threw : Bool
  img : SteganographicImage

/-- The method `SteganographicImage::hide(char *str)`: the test
`start + strlen(str) * stride > s` with its `throw`, the first loop, and the
second loop under `if (!c)`.  The first loop runs at most `8 * strlen(str)`
times, and with `stride ≥ 1` the second runs at most `s + 1` times, so the
fuel given here is enough (`hide_run`). -/
def hide (img : SteganographicImage) (str : List Nat) : Option HideResult :=
  if img.start + strlen str * img.stride > img.s then some ⟨true, img⟩
  else
    match hideLoop img.stride img.s (8 * str.length + 1) img.rgb img.start 0 (deref str) str.tail with
    | none => none
    | some (rgb, i, c) =>
      if c = 0 then
        match sentinelLoop img.stride img.s (img.s + 2) rgb i 0 with
        | none => none
        | some rgb1 => some ⟨false, { img with rgb := rgb1 }⟩
      else some ⟨false, { img with rgb := rgb }⟩

/-- The loop of `recover`:
`for (int i = start; i < s; i += stride) { if (rgb[i] & 1) c |= 1;
if (++bit == 8) { if (!c) break; bit = 0, str += c, c = 0; } else c <<= 1; }`. -/
def recoverLoop (rgb : Nat → Nat) (stride s : Nat) :
    Nat → Nat → Nat → Nat → List Nat → Option (List Nat)
  | 0, _, _, _, _ => none
  | fuel + 1, i, bit, c, str =>
    if i < s then
      let c1 := if rgb i &&& 1 ≠ 0 then c ||| 1 else c
      if bit + 1 = 8 then
        if c1 = 0 then some str
        else recoverLoop rgb stride s fuel (i + stride) 0 0 (str ++ [c1])
      else recoverLoop rgb stride s fuel (i + stride) (bit + 1) ((c1 <<< 1) % 256) str
    else some str

/-- The method `SteganographicImage::recover()`.  It performs no store, so the
state of the object after the call is the one before it.  With `stride ≥ 1`
the loop runs at most `s` times, so the fuel given here is enough
(`recover_eq_some_extractSpec`). -/
def recover (img : SteganographicImage) : Option (List Nat) :=
  recoverLoop img.rgb img.stride img.s (img.s + 9) img.start 0 0 []

/-- The span of carrier bytes a payload of `len` bytes and its sentinel need:
`start + (8 * (len + 1) - 1) * stride + 1`. -/
def requiredSpan (start stride len : Nat) : Nat :=
  start + (8 * (len + 1) - 1) * stride + 1

/-! ### The extraction contract, as the specification words it -/

/-- The carrier indices `start + i * stride` for `i = 0, 1, 2, ...` while the
index is below the bound `s`.  With `stride ≥ 1` the index of slot `i` is at
least `i`, so no slot has a number `i ≥ s`. -/
def slotIndices (img : SteganographicImage) : List Nat :=
  ((List.range img.s).map (fun i => img.start + i * img.stride)).takeWhile
    (fun a => decide (a < img.s))

/-- The least-significant bits of the carrier bytes at the slot indices. -/
def slotBits (img : SteganographicImage) : List Nat :=
  (slotIndices img).map (fun a => img.rgb a % 2)

/-- The bits grouped 8 at a time; a trailing group of fewer than 8 bits is
dropped. -/
def groups8 : List Nat → List (List Nat)
  | b0 :: b1 :: b2 :: b3 :: b4 :: b5 :: b6 :: b7 :: rest =>
    [b0, b1, b2, b3, b4, b5, b6, b7] :: groups8 rest
  | _ => []

/-- The value of a group of bits read most-significant bit first. -/
def decodeMsb (g : List Nat) : Nat := g.foldl (fun acc b => 2 * acc + b) 0

/-- The bytes the extraction contract describes: the groups decoded in order,
up to but not including the first group that decodes to zero. -/
def extractSpec (img : SteganographicImage) : List Nat :=
  ((groups8 (slotBits img)).map decodeMsb).takeWhile (fun v => decide (v ≠ 0))

/-! ### Auxiliary functions of the proofs -/

/-- The updates of `c` in the loop of `recover` over the bits of one group:
`c |= 1` for a one bit, `c <<= 1` after every bit but the last. -/
def decodeBits : List Nat → Nat → Nat
  | [], c => c
  | [b], c => if b ≠ 0 then c ||| 1 else c
  | b :: b1 :: bs, c => decodeBits (b1 :: bs) (((if b ≠ 0 then c ||| 1 else c) <<< 1) % 256)

/-- Bit number `m` of the payload, its bytes taken most-significant bit
first: the value of `c >> (7 - bit) & 1` in `hide`. -/
def payloadBit (str : List Nat) (m : Nat) : Nat :=
  (str.getD (m / 8) 0 >>> (7 - m % 8)) &&& 1

/-- The value `hide` stores for the bit `b`: `rgb[i] | 1` or `rgb[i] & ~1`. -/
def putLsb (v b : Nat) : Nat := if b ≠ 0 then v ||| 1 else v &&& 254

/-! ## `GrailRepository` -/

/-- A key handle: the `AESEncDec*` stored in the key map. -/
abbrev KeyHandle := Nat

/-- A `std::unordered_map<std::string, AESEncDec*>`: the sites of one region
with their key handles, one entry per site name. -/
abbrev SiteMap := List (String × KeyHandle)

/-- An element of `siteKeys`: a region name paired with the map of its sites. -/
abbrev Region := String × SiteMap

/-- The lookup `m.find(name)`. -/
def SiteMap.find (m : SiteMap) (name : String) : Option KeyHandle :=
  (List.find? (fun e => e.1 = name) m).map Prod.snd

/-- The call `m.erase(name)`. -/
def SiteMap.erase (m : SiteMap) (name : String) : SiteMap :=
  List.filter (fun e => e.1 ≠ name) m

/-- The assignment `m[name] = k`: the entry of `name` is replaced, or added
when there is none. -/
def SiteMap.assign (m : SiteMap) (name : String) (k : KeyHandle) : SiteMap :=
  match m with
  | [] => [(name, k)]
  | e :: rest => if e.1 = name then (name, k) :: rest else e :: SiteMap.assign rest name k

/-- The members of `GrailRepository` that the methods below use: the secret
buffer `bytes`, the `password` and the key store `siteKeys`, a sequence of
regions in the order of their `push_back`. -/
structure GrailRepository where
  bytes : List Nat
  password : String
  siteKeys : List Region
  deriving DecidableEq, Repr

/-- The loop of `generateKey`:
`for (auto region : siteKeys) { if (region.first == regionName) {
region.second[siteName] = &cipher; return; } }`.
The loop variable `region` is declared `auto`, so it is a copy of the element
of `siteKeys`.  The result is `some region`, the value of that copy at the
`return`, when the loop returns from the method, and `none` when the loop
runs to its end. -/
def generateKeyLoop (regionName siteName : String) (cipher : KeyHandle) :
    List Region → Option Region
  | [] => none
  | region :: rest =>
    if region.1 = regionName then some (region.1, SiteMap.assign region.2 siteName cipher)
    else generateKeyLoop regionName siteName cipher rest

/-- The method `GrailRepository::generateKey(regionName, siteName)`; `cipher`
is the address of the local `AESEncDec cipher(password)`.  At the `return`
inside the loop the copy `region` goes out of scope and `siteKeys` is what it
was; after the loop an empty map is pushed for the new region. -/
def generateKey (r : GrailRepository) (regionName siteName : String) (cipher : KeyHandle) :
    GrailRepository :=
  match generateKeyLoop regionName siteName cipher r.siteKeys with
  | some _ => r
  | none => { r with siteKeys := r.siteKeys ++ [(regionName, [])] }

/-- The line `deleteKey` writes to `std::cerr`. -/
def notInSiteList (siteName : String) : String :=
  "Error: Site: " ++ siteName ++ " not in site list.\n"

/-- The loops of `deleteKey`:
`for (auto region : siteKeys) { for (auto site : region.second) {
if (site.first == siteName) { region.second.erase(site.first); return; } }
std::cerr << ...; }`.
As in `generateKey` the loop variable `region` is a copy.  The result is the
value of that copy at the `return` (`none` when the loops run to their end)
and the lines written to `std::cerr`. -/
def deleteKeyLoop (siteName : String) : List Region → List String → Option Region × List String
  | [], err => (none, err)
  | region :: rest, err =>
    if (List.any region.2 (fun site => site.1 = siteName)) then
      (some (region.1, SiteMap.erase region.2 siteName), err)
    else deleteKeyLoop siteName rest (err ++ [notInSiteList siteName])

/-- The method `GrailRepository::deleteKey(siteName)`: the state of the
repository after the call and the lines written to `std::cerr`.  The method
returns `void`.  On either exit of the loops `siteKeys` is what it was: the
`erase` acted on the copy `region`. -/
def deleteKey (r : GrailRepository) (siteName : String) : GrailRepository × List String :=
  match deleteKeyLoop siteName r.siteKeys [] with
  | (_, err) => (r, err)

/-- What `get` evaluates to. -/
inductive GetResult where
  /-- The cipher behind the handle stored for the site: `*region.second[name]`
  with a stored handle. -/
  | cipher (k : KeyHandle)
  /-- The region has no entry for the site: `region.second[name]` is a fresh
  null pointer, and `get` dereferences it. -/
  | nullDeref
  /-- No region has the name: `AESEncDec(NULL)`. -/
  | nullCipher
  deriving DecidableEq, Repr

/-- The method `GrailRepository::get(area, name, userid, passwd)`:
`for (auto region : siteKeys) if (region.first == area) return
*region.second[name]; return AESEncDec(NULL);`. -/
def get (siteKeys : List Region) (area name : String) : GetResult :=
  match siteKeys with
  | [] => GetResult.nullCipher
  | region :: rest =>
    if region.1 = area then
      match SiteMap.find region.2 name with
      | some k => GetResult.cipher k
      | none => GetResult.nullDeref
    else get rest area name

/-- The method `GrailRepository::destroy()`:
`std::fill(bytes.begin(), bytes.end(), 0)`. -/
def destroy (r : GrailRepository) : GrailRepository :=
  { r with bytes := r.bytes.map (fun _ => 0) }

/-- The body of the constructor `GrailRepository::GrailRepository(uint32_t
size)`: the one statement `std::vector<uint8_t> bytes(size, 0);`, which
declares a local variable `bytes`.  No member has an initializer, so the
members are default-constructed and the member `bytes` is empty.  The result
is the local variable at the end of the body, where it goes out of scope, and
the object. -/
def newGrailRepositoryBody (size : Nat) : List Nat × GrailRepository :=
  (List.replicate size 0, { bytes := [], password := "", siteKeys := [] })

/-- The constructor `GrailRepository::GrailRepository(uint32_t size)`: the
object it leaves. -/
def newGrailRepository (size : Nat) : GrailRepository :=
  (newGrailRepositoryBody size).2

/-- The algorithm `std::generate(first, last, g)`: every element, in order, is
assigned the next value of the generator.  The generator is given by its
transition `rbe`, from a state to the value produced and the next state. -/
def generate (rbe : Nat → Nat × Nat) : Nat → List Nat → List Nat
  | _, [] => []
  | st, _ :: rest => (rbe st).1 :: generate rbe (rbe st).2 rest

/-- The method `GrailRepository::scramble(area)`: a generator `rbe` is
default-constructed, with the state `seed`, and `std::generate` runs it over
`bytes`.  The engine of the standard library is a parameter. -/
def scramble (rbe : Nat → Nat × Nat) (seed : Nat) (r : GrailRepository) (_area : String) :
    GrailRepository :=
  { r with bytes := generate rbe seed r.bytes }

/-- The method `GrailRepository::unlock(password, factor, area)`:
`this->password = password; AESEncDec cipher(password);
cipher.decrypt_file(area.c_str(), "tmp");`.
The class `AESEncDec` is not in the sources: `decrypt_file password area` is
the plaintext the cipher of `password` decrypts the file `area` to.  The
result is the state of the repository and the file the call writes, its name
and its content. -/
def unlock (decrypt_file : String → String → List Nat) (r : GrailRepository)
    (password area : String) : GrailRepository × (String × List Nat) :=
  ({ r with password := password }, ("tmp", decrypt_file password area))

/-- The method `GrailRepository::proveIdentity(password, nonce, area)`:
`return 0;`.  The result is the value returned and the state of the
repository. -/
def proveIdentity (r : GrailRepository) (_password : String) (_nonce : Nat) (_area : String) :
    Nat × GrailRepository :=
  (0, r)

/-! ### The repository and its collaborators -/

/-- A WebP file as the constructor of `SteganographicImage` reads it: its size
in bytes, which becomes the bound `s`, and the pixel memory `WebPDecodeRGB`
returns for it. -/
structure WebPFile where
  s : Nat
  rgb : Nat → Nat

/-- The local files by name; `none` for a name that is no file or no valid
WebP file. -/
abbrev Files := String → Option WebPFile

/-- A call on a collaborator, or an output, that a method of the repository
makes. -/
inductive Call where
  /-- The call `client.download(img_name, dest)`. -/
  | download (img_name dest : String)
  /-- The call `steg.write_webp(img_name)`. -/
  | write_webp (img_name : String)
  /-- The call `client.upload(img_name)`. -/
  | upload (img_name : String)
  /-- The output `std::cout << base64_encode(bytes.data(), bytes.size())`. -/
  | cout_base64 (bytes : List Nat)
  deriving DecidableEq, Repr

/-- The world around the repository: the local files and the calls made so
far, in order. -/
structure World where
  files : Files
  calls : List Call

/-- How a call of a method ends: it returns, it leaves by an exception, or it
does not end (the fuel of a loop runs out). -/
inductive Outcome where
  | returned
  | threw
  | diverged
  deriving DecidableEq, Repr

/-- What a call of `backupToCloud` or `restoreFromCloud` leaves behind. -/
structure OpResult where
  outcome : Outcome
  repo : GrailRepository
  world : World

/-- The constructor `SteganographicImage(filename, start, stride)`: it throws
(`none`) when the file does not exist or is no valid WebP file, and otherwise
sets `s` to the size of the file and `rgb` to its decoded pixels. -/
def newSteganographicImage (files : Files) (filename : String) (start stride : Nat) :
    Option SteganographicImage :=
  match files filename with
  | none => none
  | some f => some ⟨start, stride, f.s, f.rgb⟩

/-- The conversion of a `uint32_t` argument to an `int` parameter: the value
is kept below `2 ^ 31` and is the negative number `x - 2 ^ 32` from there
on. -/
def toInt32 (x : Nat) : Int :=
  if x % 2 ^ 32 < 2 ^ 31 then ((x % 2 ^ 32 : Nat) : Int)
  else ((x % 2 ^ 32 : Nat) : Int) - 2 ^ 32

/-- The loop of `recover` for any `int` values of `start` and `stride`, those
below zero included:
`for (int i = start; i < s; i += stride) { if (rgb[i] & 1) c |= 1;
if (++bit == 8) { if (!c) break; bit = 0, str += c, c = 0; } else c <<= 1; }`.
The test `i < s` compares in `size_t`, where a negative `i` is a value above
every bound `s`, so the loop goes on while `0 ≤ i` and `i < s`. -/
def recoverLoopInt (rgb : Nat → Nat) (stride : Int) (s : Nat) :
    Nat → Int → Nat → Nat → List Nat → Option (List Nat)
  | 0, _, _, _, _ => none
  | fuel + 1, i, bit, c, str =>
    if 0 ≤ i ∧ i < (s : Int) then
      let c1 := if rgb i.toNat &&& 1 ≠ 0 then c ||| 1 else c
      if bit + 1 = 8 then
        if c1 = 0 then some str
        else recoverLoopInt rgb stride s fuel (i + stride) 0 0 (str ++ [c1])
      else recoverLoopInt rgb stride s fuel (i + stride) (bit + 1) ((c1 <<< 1) % 256) str
    else some str

/-- The method `recover` of an object built with the `int` values `start` and
`stride`, the bound `s` and the pixels `rgb`.  For `start` and `stride` not
below zero it is `recover` (`recoverInt_ofNat`). -/
def recoverInt (start stride : Int) (s : Nat) (rgb : Nat → Nat) : Option (List Nat) :=
  recoverLoopInt rgb stride s (s + 9) start 0 0 []

/-- The method `GrailRepository::restoreFromCloud(service_name, userid,
passwd, offset, stride, img_name)`:
`client.download(img_name, ""); SteganographicImage steg(img_name, offset,
stride); bytes = steg.recover(); std::cout << base64_encode(...)`.
The cloud client is not in the sources: `download files img_name dest` gives
the local files after the call `client.download(img_name, dest)`.  The
constructor throws when the file is missing or no valid WebP file.  `offset`
and `stride` are `uint32_t` and the parameters of the constructor are `int`:
the object is built with the values `toInt32 offset` and `toInt32 stride`. -/
def restoreFromCloud (download : Files → String → String → Files) (r : GrailRepository)
    (w : World) (offset stride : Nat) (img_name : String) : OpResult :=
  let w1 : World := ⟨download w.files img_name "", w.calls ++ [Call.download img_name ""]⟩
  match w1.files img_name with
  | none => ⟨Outcome.threw, r, w1⟩
  | some f =>
    match recoverInt (toInt32 offset) (toInt32 stride) f.s f.rgb with
    | none => ⟨Outcome.diverged, r, w1⟩
    | some str =>
      ⟨Outcome.returned, { r with bytes := str }, ⟨w1.files, w1.calls ++ [Call.cout_base64 str]⟩⟩

/-- The method `GrailRepository::backupToCloud(service_name, userid, passwd,
offset, stride, img_name)`:
`SteganographicImage steg(img_name, offset, stride); steg.hide_secret(bytes);
steg.write_webp(img_name); client.upload(img_name);`.
The methods `hide_secret` and `write_webp` and the cloud client are not in
the sources.  `hide_secret` is a parameter, to be instantiated with `hide`,
the embedding method the class has in `steganography.cc`; `write_webp steg
img_name files` gives the local files after the call.  An exception of
`hide_secret` is not caught, so it ends the method before the two calls that
follow.  `offset` and `stride` are the values the `int` parameters of the
constructor receive: they stand for arguments below `2 ^ 31`, which the
conversion from `uint32_t` leaves as they are. -/
def backupToCloud (hide_secret : SteganographicImage → List Nat → Option HideResult)
    (write_webp : SteganographicImage → String → Files → Files) (r : GrailRepository)
    (w : World) (offset stride : Nat) (img_name : String) : OpResult :=
  match newSteganographicImage w.files img_name offset stride with
  | none => ⟨Outcome.threw, r, w⟩
  | some steg =>
    match hide_secret steg r.bytes with
    | none => ⟨Outcome.diverged, r, w⟩
    | some h =>
      if h.threw then ⟨Outcome.threw, r, w⟩
      else ⟨Outcome.returned, r,
        ⟨write_webp h.img img_name w.files,
          w.calls ++ [Call.write_webp img_name, Call.upload img_name]⟩⟩

/-- A call of one of the two methods that change the key store. -/
inductive KeyOp where
  | generateKey (regionName siteName : String) (cipher : KeyHandle)
  | deleteKey (siteName : String)
  deriving DecidableEq, Repr

/-- The repository after a sequence of `generateKey` and `deleteKey` calls. -/
def runKeyOps : List KeyOp → GrailRepository → GrailRepository
  | [], r => r
  | KeyOp.generateKey regionName siteName cipher :: ops, r =>
    runKeyOps ops (generateKey r regionName siteName cipher)
  | KeyOp.deleteKey siteName :: ops, r => runKeyOps ops (deleteKey r siteName).1

/-! ## `Stats1D` (`src/xp/Stats.hh`)

The class template `Stats1D<T>` at `T = double`.  A `double` is a rational
number here: the arithmetic is exact, which it is in the source too for the
values the theorems below evaluate, all of them small multiples of 1/8. -/

/-- The `struct Summary`. -/
structure Summary where
  min : ℚ
  max : ℚ
  q1 : ℚ
  q3 : ℚ
  median : ℚ
  deriving DecidableEq

/-- The `enum class QuantileAlgorithm`. -/
inductive QuantileAlgorithm where
  | R1 | R2 | R3 | R4 | R5 | R6 | R7 | R8 | R9
  deriving DecidableEq, Repr

/-- The element `data[x]` for an index `x` computed as a `double`.  An index
outside the vector is undefined behaviour in the source; it reads as 0. -/
def dataAt (data : List ℚ) (x : ℚ) : ℚ :=
  if x < 0 then 0 else data.getD (Rat.floor x).toNat 0

/-- The C library function `round`: to the nearest integer, halves away from
zero. -/
def cround (x : ℚ) : ℚ :=
  if 0 ≤ x then (Rat.floor (x + 1 / 2) : ℚ) else -(Rat.floor (-x + 1 / 2) : ℚ)

/-- `r1`: `h = data.size() * p + 0.5; return data[ceil(h - 0.5) - 1];`. -/
def r1 (data : List ℚ) (p : ℚ) : ℚ :=
  let h : ℚ := data.length * p + 1 / 2
  dataAt data ((Rat.ceil (h - 1 / 2) : ℚ) - 1)

/-- `r2`: `h = data.size() * p + 0.5; return (data[ceil(h - 0.5) - 1] +
data[floor(h + 0.5) - 1]) / 2;`. -/
def r2 (data : List ℚ) (p : ℚ) : ℚ :=
  let h : ℚ := data.length * p + 1 / 2
  (dataAt data ((Rat.ceil (h - 1 / 2) : ℚ) - 1) + dataAt data ((Rat.floor (h + 1 / 2) : ℚ) - 1)) / 2

/-- `r3`: `h = data.size() * p; return data[round(h) - 1];`. -/
def r3 (data : List ℚ) (p : ℚ) : ℚ :=
  let h : ℚ := data.length * p
  dataAt data (cround h - 1)

/-- `interpolate_quantile`: `data[floor(h) - 1] + (h - floor(h)) *
(data[ceil(h) - 1] - data[floor(h) - 1])`. -/
def interpolate_quantile (data : List ℚ) (h : ℚ) : ℚ :=
  dataAt data ((Rat.floor h : ℚ) - 1)
    + (h - (Rat.floor h : ℚ))
      * (dataAt data ((Rat.ceil h : ℚ) - 1) - dataAt data ((Rat.floor h : ℚ) - 1))

/-- `r4`: `h = data.size() * p`. -/
def r4 (data : List ℚ) (p : ℚ) : ℚ := interpolate_quantile data (data.length * p)

/-- `r5`: `h = data.size() * p + 0.5`. -/
def r5 (data : List ℚ) (p : ℚ) : ℚ := interpolate_quantile data (data.length * p + 1 / 2)

/-- `r6`: `h = (data.size() + 1) * p`. -/
def r6 (data : List ℚ) (p : ℚ) : ℚ := interpolate_quantile data ((data.length + 1 : ℕ) * p)

/-- `r7`: `h = (data.size() - 1) * p + 1`, the difference taken in `size_t`. -/
def r7 (data : List ℚ) (p : ℚ) : ℚ :=
  interpolate_quantile data (((data.length + (2 ^ 64 - 1)) % 2 ^ 64 : ℕ) * p + 1)

/-- `r8`: `h = (data.size() + 1 / 3) * p + 1 / 3`, where `1 / 3` is a division
of integers. -/
def r8 (data : List ℚ) (p : ℚ) : ℚ :=
  interpolate_quantile data ((data.length + 1 / 3 : ℕ) * p + ((1 / 3 : ℕ) : ℚ))

/-- `r9`: `h = (data.size() + 0.25) * p + .375`. -/
def r9 (data : List ℚ) (p : ℚ) : ℚ :=
  interpolate_quantile data ((data.length + 1 / 4) * p + 3 / 8)

/-- The table `quantile_function_map`, indexed by `(int)alg`. -/
def quantile_function_map : QuantileAlgorithm → List ℚ → ℚ → ℚ
  | QuantileAlgorithm.R1 => r1
  | QuantileAlgorithm.R2 => r2
  | QuantileAlgorithm.R3 => r3
  | QuantileAlgorithm.R4 => r4
  | QuantileAlgorithm.R5 => r5
  | QuantileAlgorithm.R6 => r6
  | QuantileAlgorithm.R7 => r7
  | QuantileAlgorithm.R8 => r8
  | QuantileAlgorithm.R9 => r9

/-- The members of `Stats1D` that the methods below use.  (The members
`mean`, `stddev`, `variance` and `iqr` belong to methods not embedded.) -/
structure Stats1D where
  sorted_data : List ℚ
  cache_flags : Nat
  modes : List ℚ
  fivenum : Summary
  defaultQuantile : QuantileAlgorithm
  quantile : QuantileAlgorithm

/-- The flag `SORTED = 0b00100000`. -/
def SORTED : Nat := 32

/-- The flag `FIVENUM = 0b00000001`. -/
def FIVENUM : Nat := 1

/-- The call `sort(sorted_data.begin(), sorted_data.end())`. -/
def sort (data : List ℚ) : List ℚ := List.insertionSort (fun a b => a ≤ b) data

/-- The constructor `Stats1D(a, b, sorted)`: the data are copied, sorted
unless `sorted` is set, `cache_flags = SORTED` and `defaultQuantile = R6`.
The members `fivenum` and `quantile` are not assigned by it (`quantile` has
the initializer `= defaultQuantile`, which runs before the body sets
`defaultQuantile`): their values `fivenum0` and `quantile0` are
parameters. -/
def newStats1D (data : List ℚ) (sorted : Bool) (fivenum0 : Summary)
    (quantile0 : QuantileAlgorithm) : Stats1D :=
  { sorted_data := if sorted then data else sort data
    cache_flags := SORTED
    modes := []
    fivenum := fivenum0
    defaultQuantile := QuantileAlgorithm.R6
    quantile := quantile0 }

/-- The method `updateData(a, b, sorted)`: the data are replaced, sorted
unless `sorted` is set, `cache_flags = 0b00100000` and `modes.clear()`. -/
def updateData (st : Stats1D) (data : List ℚ) (sorted : Bool) : Stats1D :=
  { st with
    sorted_data := if sorted then data else sort data
    cache_flags := 32
    modes := [] }

/-- The method `getQuantile(percentile, alg)`. -/
def getQuantile (st : Stats1D) (percentile : ℚ) (alg : QuantileAlgorithm) : ℚ :=
  quantile_function_map alg st.sorted_data percentile

/-- The method `setQuantileAlgorithm(q)`: `quantile = q;`. -/
def setQuantileAlgorithm (st : Stats1D) (q : QuantileAlgorithm) : Stats1D :=
  { st with quantile := q }

/-- The method `getSummary()`: the summary returned and the state of the
object.  The cached summary is returned when the flag `FIVENUM` is set;
otherwise the quantiles are computed by `getQuantile(p, defaultQuantile)`,
stored, and the flag is set.  On empty data `*sorted_data.begin()` and
`*(sorted_data.end() - 1)` are undefined behaviour; they read as 0. -/
def getSummary (st : Stats1D) : Summary × Stats1D :=
  if st.cache_flags &&& FIVENUM = FIVENUM then (st.fivenum, st)
  else
    let fn : Summary :=
      { min := st.sorted_data.headD 0
        max := st.sorted_data.getLastD 0
        q1 := getQuantile st (1 / 4) st.defaultQuantile
        median := getQuantile st (1 / 2) st.defaultQuantile
        q3 := getQuantile st (3 / 4) st.defaultQuantile }
    (fn, { st with fivenum := fn, cache_flags := st.cache_flags ||| FIVENUM })

/-- The lookup `map.find(key)` in the `std::unordered_map<T, int>` of
`getModes`, a list of keys with their values, one entry per key. -/
def mapFind (map : List (ℚ × Nat)) (key : ℚ) : Option Nat :=
  (List.find? (fun e => e.1 = key) map).map Prod.snd

/-- The call `map.insert_or_assign(key, value)`. -/
def insert_or_assign : List (ℚ × Nat) → ℚ → Nat → List (ℚ × Nat)
  | [], key, value => [(key, value)]
  | e :: rest, key, value =>
    if e.1 = key then (key, value) :: rest else e :: insert_or_assign rest key value

/-- The first loop of `getModes`:
`for (auto const& num : sorted_data) { int tmp = 1; auto search =
map.find(num); if (search != map.end()) tmp = search->second + 1;
map.insert_or_assign(num, tmp); if (tmp > biggest_mode) biggest_mode = tmp; }`.
The result is the map and `biggest_mode` at the end of the loop;
`biggest_mode`, a `double` that holds counts, is a natural number. -/
def getModesCount : List ℚ → List (ℚ × Nat) → Nat → List (ℚ × Nat) × Nat
  | [], map, biggest_mode => (map, biggest_mode)
  | num :: rest, map, biggest_mode =>
    let tmp : Nat := match mapFind map num with
      | some count => count + 1
      | none => 1
    getModesCount rest (insert_or_assign map num tmp)
      (if tmp > biggest_mode then tmp else biggest_mode)

/-- The second loop of `getModes`:
`for (auto const& [key, value] : map) if (value == biggest_mode)
modes.push_back(key);`.  The map is traversed in the order of its list; the
source leaves the order unspecified. -/
def getModesCollect : List (ℚ × Nat) → Nat → List ℚ → List ℚ
  | [], _, modes => modes
  | e :: rest, biggest_mode, modes =>
    getModesCollect rest biggest_mode (if e.2 = biggest_mode then modes ++ [e.1] else modes)

/-- The method `getModes()`: the vector returned and the state of the
object.  A non-empty member `modes` is returned as it is; otherwise the two
loops fill it, from `biggest_mode = 1` and an empty map. -/
def getModes (st : Stats1D) : List ℚ × Stats1D :=
  if st.modes.length ≠ 0 then (st.modes, st)
  else
    match getModesCount st.sorted_data [] 1 with
    | (map, biggest_mode) =>
      (getModesCollect map biggest_mode st.modes,
        { st with modes := getModesCollect map biggest_mode st.modes })

/-! ## Theorems: `GrailRepository` -/

/-- C6 (the code at a failing input).  A second `generateKey` for a region the
store already has does not reach the stored bucket: the store `[("us-east",
[])]` that the first call leaves behind is unchanged by the second call and
`get` finds no handle for the site; and where the bucket holds the handle `1`
of an earlier key, a `generateKey` with the new handle `2` leaves `get`
returning the cipher of handle `1`. -/
theorem generateKey_existing_region_write_lost :
    (generateKey ⟨[], "pw", [("us-east", [])]⟩ "us-east" "site1" 2).siteKeys = [("us-east", [])]
    ∧ get (generateKey (generateKey ⟨[], "pw", []⟩ "us-east" "site1" 1) "us-east" "site1" 2).siteKeys
        "us-east" "site1" = GetResult.nullDeref
    ∧ get (generateKey ⟨[], "pw", [("us-east", [("site1", 1)])]⟩ "us-east" "site1" 2).siteKeys
        "us-east" "site1" = GetResult.cipher 1 := by
  decide

/-- C7 (the code at a failing input).  On the empty store
`generateKey("us-east", "site1")` pushes the region with an empty map: the
store holds no handle for the site, and `get` dereferences a null pointer
where the claim has it return the key. -/
theorem generateKey_new_region_stores_no_key :
    (generateKey ⟨[], "pw", []⟩ "us-east" "site1" 1).siteKeys = [("us-east", [])]
    ∧ get (generateKey ⟨[], "pw", []⟩ "us-east" "site1" 1).siteKeys "us-east" "site1"
        = GetResult.nullDeref := by
  decide

/-- C9 (the code at a failing input).  On the empty store
`deleteKey("nonexistent")` leaves the store unchanged and writes nothing to
`std::cerr`: the absence of the key is not reported.  On a store with one
region and no such site the error line is written. -/
theorem deleteKey_empty_store_reports_nothing :
    deleteKey ⟨[], "pw", []⟩ "nonexistent" = (⟨[], "pw", []⟩, [])
    ∧ (deleteKey ⟨[], "pw", [("us-east", [])]⟩ "nonexistent").2
        = [notInSiteList "nonexistent"] := by
  decide

/-- C10.  After `destroy()` every byte of the secret buffer is zero and the
buffer has the length it had before the call. -/
theorem destroy_zero_fills (r : GrailRepository) :
    (∀ b ∈ (destroy r).bytes, b = 0) ∧ (destroy r).bytes.length = r.bytes.length := by
  constructor
  · intro b hb
    simp only [destroy, List.mem_map] at hb
    obtain ⟨_, _, h⟩ := hb
    exact h.symm
  · simp [destroy]

/-! ## Theorems: `SteganographicImage`, the code at failing inputs -/

/-- C2 (the code at a failing input).  Carrier bound 16, `start = 0`,
`stride = 1`, payload `"AB"`: the required span is 24, more than 16, and yet
`hide` does not throw; it overwrites the least-significant bits of all 16
carrier bytes with the 16 payload bits. -/
theorem hide_over_capacity_not_rejected :
    requiredSpan 0 1 2 = 24
    ∧ (hide ⟨0, 1, 16, fun _ => 255⟩ [65, 66]).map
        (fun r => (r.threw, (List.range 16).map r.img.rgb))
      = some (false, [254, 255, 254, 254, 254, 254, 254, 255,
                      254, 255, 254, 254, 254, 254, 255, 254]) := by
  decide

/-- C5 (the code at a failing input).  Carrier bound 24, `start = 0`,
`stride = 1`, every carrier byte 255, payload `"A"`: the payload and its
sentinel take the slots 0 to 15, within capacity, and `hide` also clears the
least-significant bits of the bytes 16 to 23.  With carrier bound 16 the
payload fits exactly and `hide` clears the bit of the byte at offset 16, past
the bound. -/
theorem hide_sentinel_clears_past_eight_slots :
    requiredSpan 0 1 1 = 16
    ∧ (hide ⟨0, 1, 24, fun _ => 255⟩ [65]).map
        (fun r => (r.threw, (List.range 26).map r.img.rgb))
      = some (false, [254, 255, 254, 254, 254, 254, 254, 255,
                      254, 254, 254, 254, 254, 254, 254, 254,
                      254, 254, 254, 254, 254, 254, 254, 254, 255, 255])
    ∧ (hide ⟨0, 1, 16, fun _ => 255⟩ [65]).map
        (fun r => (r.threw, (List.range 18).map r.img.rgb))
      = some (false, [254, 255, 254, 254, 254, 254, 254, 255,
                      254, 254, 254, 254, 254, 254, 254, 254, 254, 255]) := by
  decide

theorem recoverLoop_succ (rgb : Nat → Nat) (stride s fuel i bit c : Nat) (str : List Nat) :
    recoverLoop rgb stride s (fuel + 1) i bit c str =
      if i < s then
        if bit + 1 = 8 then
          if (if rgb i &&& 1 ≠ 0 then c ||| 1 else c) = 0 then some str
          else recoverLoop rgb stride s fuel (i + stride) 0 0
            (str ++ [if rgb i &&& 1 ≠ 0 then c ||| 1 else c])
        else recoverLoop rgb stride s fuel (i + stride) (bit + 1)
          (((if rgb i &&& 1 ≠ 0 then c ||| 1 else c) <<< 1) % 256) str
      else some str := rfl

/-- Less than eight slots are left in the current group: the loop of
`recover` ends without appending. -/
theorem recoverLoop_short_group (rgb : Nat → Nat) (stride s : Nat) :
    ∀ fuel i bit c acc, bit < 8 → s ≤ i + (7 - bit) * stride → 9 - bit ≤ fuel →
      recoverLoop rgb stride s fuel i bit c acc = some acc := by
  intro fuel
  induction fuel with
  | zero => intro i bit c acc hb _ hf; omega
  | succ fuel ih =>
    intro i bit c acc hb hs hf
    rw [recoverLoop_succ]
    by_cases hi : i < s
    · have hb7 : bit + 1 ≠ 8 := by
        intro h8
        have : bit = 7 := by omega
        subst this
        simp at hs
        omega
      rw [if_pos hi, if_neg hb7]
      apply ih
      · omega
      · have : 7 - bit = (7 - (bit + 1)) + 1 := by omega
        rw [this, Nat.add_mul, Nat.one_mul] at hs
        omega
      · omega
    · rw [if_neg hi]

/-- The rest of a group lies below the bound: the loop of `recover` decodes
it, and either stops at a zero byte or appends the byte and goes on with the
next group. -/
theorem recoverLoop_group (rgb : Nat → Nat) (stride s : Nat) :
    ∀ n fuel i c acc, 1 ≤ n → n ≤ 8 → i + (n - 1) * stride < s →
      recoverLoop rgb stride s (fuel + n) i (8 - n) c acc =
        if decodeBits ((List.range n).map (fun t => rgb (i + t * stride) % 2)) c = 0 then some acc
        else recoverLoop rgb stride s fuel (i + n * stride) 0 0
          (acc ++ [decodeBits ((List.range n).map (fun t => rgb (i + t * stride) % 2)) c]) := by
  intro n
  induction n with
  | zero => intro fuel i c acc h; omega
  | succ n ih =>
    intro fuel i c acc _ h8 hs
    have hi : i < s := by
      have : i ≤ i + (n + 1 - 1) * stride := Nat.le_add_right _ _
      omega
    rw [← Nat.add_assoc, recoverLoop_succ, if_pos hi]
    by_cases hn : n = 0
    · subst hn
      simp [decodeBits, Nat.and_one_is_mod]
    · have hbit : 8 - (n + 1) + 1 ≠ 8 := by omega
      have hbit2 : 8 - (n + 1) + 1 = 8 - n := by omega
      rw [if_neg hbit, hbit2]
      have hs2 : i + stride + (n - 1) * stride < s := by
        have : n + 1 - 1 = (n - 1) + 1 := by omega
        rw [this, Nat.add_mul, Nat.one_mul] at hs
        omega
      rw [ih fuel (i + stride) _ acc (by omega) (by omega) hs2]
      have hlist : (List.range (n + 1)).map (fun t => rgb (i + t * stride) % 2)
          = (rgb i % 2) :: (List.range n).map (fun t => rgb (i + stride + t * stride) % 2) := by
        rw [List.range_succ_eq_map]
        simp only [List.map_cons, List.map_map, Nat.zero_mul, Nat.add_zero]
        congr 1
        apply List.map_congr_left
        intro t _
        simp only [Function.comp, Nat.succ_eq_add_one, Nat.add_mul, Nat.one_mul]
        congr 2
        omega
      have hidx : i + stride + n * stride = i + (n + 1) * stride := by
        rw [Nat.add_mul n 1 stride, Nat.one_mul]; omega
      rw [hlist, hidx]
      obtain ⟨m, rfl⟩ : ∃ m, n = m + 1 := ⟨n - 1, by omega⟩
      rw [List.range_succ_eq_map m]
      simp only [List.map_cons, decodeBits, Nat.and_one_is_mod]

theorem decodeBits_eq_decodeMsb :
    ∀ x0 < 2, ∀ x1 < 2, ∀ x2 < 2, ∀ x3 < 2, ∀ x4 < 2, ∀ x5 < 2, ∀ x6 < 2, ∀ x7 < 2,
      decodeBits [x0, x1, x2, x3, x4, x5, x6, x7] 0 = decodeMsb [x0, x1, x2, x3, x4, x5, x6, x7] := by
  intro x0 h0 x1 h1 x2 h2 x3 h3 x4 h4 x5 h5 x6 h6 x7 h7
  interval_cases x0 <;> interval_cases x1 <;> interval_cases x2 <;> interval_cases x3 <;>
    interval_cases x4 <;> interval_cases x5 <;> interval_cases x6 <;> interval_cases x7 <;> rfl

theorem groups8_short (l : List Nat) (h : l.length < 8) : groups8 l = [] := by
  unfold groups8
  split
  · simp only [List.length_cons] at h
    omega
  · rfl

theorem rangeFrom_eight (a m : Nat) :
    List.range' a (m + 8) = a :: (a + 1) :: (a + 2) :: (a + 3) :: (a + 4) :: (a + 5) :: (a + 6)
      :: (a + 7) :: List.range' (a + 8) m := by
  simp [List.range'_succ]

theorem takeWhile_lt_rangeFrom (n : Nat) :
    ∀ m a, (List.range' a m).takeWhile (fun k => decide (k < n)) = List.range' a (min m (n - a)) := by
  intro m
  induction m with
  | zero => intro a; simp
  | succ m ih =>
    intro a
    rw [List.range'_succ, List.takeWhile_cons]
    by_cases h : a < n
    · have h2 : min (m + 1) (n - a) = min m (n - (a + 1)) + 1 := by omega
      simp only [h, decide_True, if_true, ih, h2, List.range'_succ]
    · have h2 : min (m + 1) (n - a) = 0 := by omega
      simp [h, h2]

/-- With `stride ≥ 1` the slots below the bound are those with a number below
some `n ≤ s`. -/
theorem exists_slotCount (start stride s : Nat) (hstride : 1 ≤ stride) :
    ∃ n, n ≤ s ∧ ∀ k, start + k * stride < s ↔ k < n := by
  have hex : ∃ k, s ≤ start + k * stride :=
    ⟨s, le_trans (Nat.le_mul_of_pos_right s hstride) (Nat.le_add_left _ _)⟩
  refine ⟨Nat.find hex, Nat.find_min' hex (le_trans (Nat.le_mul_of_pos_right s hstride)
    (Nat.le_add_left _ _)), fun k => ⟨fun h => ?_, fun h => ?_⟩⟩
  · by_contra hk
    have hle : Nat.find hex ≤ k := Nat.le_of_not_lt hk
    have h1 : s ≤ start + Nat.find hex * stride := Nat.find_spec hex
    have h2 : Nat.find hex * stride ≤ k * stride := Nat.mul_le_mul_right _ hle
    omega
  · have := Nat.find_min hex h
    omega

theorem slotIndices_eq (img : SteganographicImage) (n : Nat) (hn : n ≤ img.s)
    (h : ∀ k, img.start + k * img.stride < img.s ↔ k < n) :
    slotIndices img = (List.range' 0 n).map (fun k => img.start + k * img.stride) := by
  unfold slotIndices
  rw [List.takeWhile_map]
  have hp : ((fun a => decide (a < img.s)) ∘ fun i => img.start + i * img.stride)
      = fun k => decide (k < n) := by
    funext k
    simp only [Function.comp, h k]
  rw [hp, List.range_eq_range', takeWhile_lt_rangeFrom]
  congr 2
  omega

/-- The loop of `recover`, entered at the first slot of a group with `m`
slots left below the bound, appends the bytes of the extraction contract. -/
theorem recoverLoop_slots (rgb : Nat → Nat) (start stride s : Nat) :
    ∀ m a fuel acc, (m = 0 ∨ start + (a + m - 1) * stride < s) → s ≤ start + (a + m) * stride →
      m + 9 ≤ fuel →
      recoverLoop rgb stride s fuel (start + a * stride) 0 0 acc =
        some (acc ++ ((groups8 ((List.range' a m).map (fun k => rgb (start + k * stride) % 2))).map
          decodeMsb).takeWhile (fun v => decide (v ≠ 0))) := by
  intro m
  induction m using Nat.strong_induction_on with
  | _ m ih =>
    intro a fuel acc hlo hhi hf
    by_cases hm : m < 8
    · rw [groups8_short _ (by simpa using hm)]
      simp only [List.map_nil, List.takeWhile_nil, List.append_nil]
      apply recoverLoop_short_group
      · omega
      · have : (a + m) * stride ≤ (a + 7) * stride := Nat.mul_le_mul_right _ (by omega)
        have h7 : start + a * stride + (7 - 0) * stride = start + (a + 7) * stride := by
          rw [Nat.add_mul a 7 stride]; omega
        omega
      · omega
    · obtain ⟨m', rfl⟩ : ∃ m', m = m' + 8 := ⟨m - 8, by omega⟩
      obtain ⟨fuel', rfl⟩ : ∃ fuel', fuel = fuel' + 8 := ⟨fuel - 8, by omega⟩
      have haddr : ∀ t, start + a * stride + t * stride = start + (a + t) * stride := by
        intro t; rw [Nat.add_mul a t stride]; omega
      have h7 : start + a * stride + (8 - 1) * stride < s := by
        show start + a * stride + 7 * stride < s
        rcases hlo with h0 | hlo
        · omega
        · have : (a + 7) * stride ≤ (a + (m' + 8) - 1) * stride :=
            Nat.mul_le_mul_right _ (by omega)
          rw [haddr]
          omega
      have hg := recoverLoop_group rgb stride s 8 fuel' (start + a * stride) 0 acc
        (by omega) (by omega) h7
      simp only [Nat.sub_self] at hg
      rw [hg, rangeFrom_eight]
      have hrange : List.range 8 = [0, 1, 2, 3, 4, 5, 6, 7] := by decide
      simp only [hrange, List.map_cons, List.map_nil, haddr, Nat.add_zero, groups8,
        List.takeWhile_cons]
      rw [decodeBits_eq_decodeMsb _ (Nat.mod_lt _ (by omega)) _ (Nat.mod_lt _ (by omega))
        _ (Nat.mod_lt _ (by omega)) _ (Nat.mod_lt _ (by omega)) _ (Nat.mod_lt _ (by omega))
        _ (Nat.mod_lt _ (by omega)) _ (Nat.mod_lt _ (by omega)) _ (Nat.mod_lt _ (by omega))]
      by_cases hz : decodeMsb [rgb (start + a * stride) % 2, rgb (start + (a + 1) * stride) % 2,
          rgb (start + (a + 2) * stride) % 2, rgb (start + (a + 3) * stride) % 2,
          rgb (start + (a + 4) * stride) % 2, rgb (start + (a + 5) * stride) % 2,
          rgb (start + (a + 6) * stride) % 2, rgb (start + (a + 7) * stride) % 2] = 0
      · simp [hz]
      · have hlo' : m' = 0 ∨ start + (a + 8 + m' - 1) * stride < s := by
          rcases hlo with h0 | hlo
          · omega
          · right
            have : a + 8 + m' - 1 = a + (m' + 8) - 1 := by omega
            rw [this]; exact hlo
        have hhi' : s ≤ start + (a + 8 + m') * stride := by
          have : a + 8 + m' = a + (m' + 8) := by omega
          rw [this]; exact hhi
        have := ih m' (by omega) (a + 8) fuel' (acc ++ [decodeMsb [rgb (start + a * stride) % 2,
          rgb (start + (a + 1) * stride) % 2,
          rgb (start + (a + 2) * stride) % 2, rgb (start + (a + 3) * stride) % 2,
          rgb (start + (a + 4) * stride) % 2, rgb (start + (a + 5) * stride) % 2,
          rgb (start + (a + 6) * stride) % 2, rgb (start + (a + 7) * stride) % 2]])
          hlo' hhi' (by omega)
        rw [if_neg hz, this]
        simp [hz]

/-- The method `recover` returns the bytes of the extraction contract. -/
theorem recover_eq_some_extractSpec (img : SteganographicImage) (hstride : 1 ≤ img.stride) :
    recover img = some (extractSpec img) := by
  obtain ⟨n, hn, h⟩ := exists_slotCount img.start img.stride img.s hstride
  have hsl := slotIndices_eq img n hn h
  unfold recover extractSpec slotBits
  rw [hsl, List.map_map]
  have hlo : n = 0 ∨ img.start + (0 + n - 1) * img.stride < img.s := by
    by_cases h0 : n = 0
    · left; exact h0
    · right; exact (h _).2 (by omega)
  have hhi : img.s ≤ img.start + (0 + n) * img.stride := by
    have := (h n).not.2 (by omega)
    rw [Nat.zero_add]
    omega
  have := recoverLoop_slots img.rgb img.start img.stride img.s n 0 (img.s + 9) [] hlo hhi (by omega)
  simp only [Nat.zero_mul, Nat.add_zero, List.nil_append] at this
  rw [this]
  rfl

/-! ### The loops of `hide` -/

theorem hideLoop_succ (stride s fuel : Nat) (rgb : Nat → Nat) (i bit c : Nat) (str : List Nat) :
    hideLoop stride s (fuel + 1) rgb i bit c str =
      if i < s ∧ c ≠ 0 then
        if bit + 1 = 8 then
          hideLoop stride s fuel
            (store rgb i (if (c >>> (7 - bit)) &&& 1 ≠ 0 then rgb i ||| 1 else rgb i &&& 254))
            (i + stride) 0 (deref str) str.tail
        else
          hideLoop stride s fuel
            (store rgb i (if (c >>> (7 - bit)) &&& 1 ≠ 0 then rgb i ||| 1 else rgb i &&& 254))
            (i + stride) (bit + 1) c str
      else some (rgb, i, c) := rfl

theorem sentinelLoop_succ (stride s fuel : Nat) (rgb : Nat → Nat) (i j : Nat) :
    sentinelLoop stride s (fuel + 1) rgb i j =
      if i < s ∨ j = 8 then
        sentinelLoop stride s fuel (store rgb i (rgb i &&& 254)) (i + stride) (j + 1)
      else some rgb := rfl

theorem strlen_le_length : ∀ p : List Nat, strlen p ≤ p.length
  | [] => Nat.le_refl 0
  | c :: rest => by
    unfold strlen
    by_cases hc : c = 0
    · simp [hc]
    · simp only [hc, if_false, List.length_cons]
      exact Nat.succ_le_succ (strlen_le_length rest)

theorem getD_ne_zero_of_lt_strlen : ∀ (p : List Nat) (k : Nat), k < strlen p → p.getD k 0 ≠ 0
  | [], k, h => by simp [strlen] at h
  | c :: rest, k, h => by
    unfold strlen at h
    by_cases hc : c = 0
    · simp [hc] at h
    · simp only [hc, if_false] at h
      cases k with
      | zero => simpa using hc
      | succ k =>
        rw [List.getD_cons_succ]
        exact getD_ne_zero_of_lt_strlen rest k (by omega)

theorem getD_strlen : ∀ p : List Nat, p.getD (strlen p) 0 = 0
  | [] => rfl
  | c :: rest => by
    unfold strlen
    by_cases hc : c = 0
    · simp [hc]
    · simp only [hc, if_false, List.getD_cons_succ]
      exact getD_strlen rest

theorem deref_drop (p : List Nat) (k : Nat) : deref (p.drop k) = p.getD k 0 := by
  simp [deref, List.headD_eq_head?_getD, List.getD_eq_getElem?_getD, List.head?_drop]

theorem deref_tail (str : List Nat) :
    deref str = str.getD 0 0 ∧ str.tail = str.drop 1 := by
  cases str <;> simp [deref]

/-- The first loop of `hide`, entered at bit number `pos` of the string `p`
with `M` slots left below the bound: it writes the next `min R M` bits, `R`
the number of bits left in the string, one per slot, and nothing else. -/
theorem hideLoop_run (stride s : Nat) (hstride : 1 ≤ stride) (p : List Nat) :
    ∀ fuel rgb i pos M, pos ≤ 8 * strlen p → (∀ k, i + k * stride < s ↔ k < M) →
      min (8 * strlen p - pos) M + 1 ≤ fuel →
      ∃ rgb1, hideLoop stride s fuel rgb i (pos % 8) (p.getD (pos / 8) 0) (p.drop (pos / 8 + 1))
          = some (rgb1, i + min (8 * strlen p - pos) M * stride,
              p.getD ((pos + min (8 * strlen p - pos) M) / 8) 0)
        ∧ (∀ k, k < min (8 * strlen p - pos) M →
            rgb1 (i + k * stride) = putLsb (rgb (i + k * stride)) (payloadBit p (pos + k)))
        ∧ (∀ a, (∀ k, k < min (8 * strlen p - pos) M → a ≠ i + k * stride) → rgb1 a = rgb a) := by
  intro fuel
  induction fuel with
  | zero => intro rgb i pos M _ _ hf; omega
  | succ fuel ih =>
    intro rgb i pos M hpos hM hf
    rw [hideLoop_succ]
    have hi : i < s ↔ 0 < M := by simpa using hM 0
    have hc : p.getD (pos / 8) 0 ≠ 0 ↔ pos < 8 * strlen p := by
      constructor
      · intro h
        by_contra hlt
        have : pos / 8 = strlen p := by omega
        rw [this] at h
        exact h (getD_strlen p)
      · intro h
        exact getD_ne_zero_of_lt_strlen p _ (by omega)
    by_cases hcond : i < s ∧ p.getD (pos / 8) 0 ≠ 0
    · have hM0 : 0 < M := hi.1 hcond.1
      have hR0 : pos < 8 * strlen p := hc.1 hcond.2
      have hM' : ∀ k, i + stride + k * stride < s ↔ k < M - 1 := by
        intro k
        have := hM (k + 1)
        rw [Nat.add_mul, Nat.one_mul] at this
        have e : i + stride + k * stride = i + (k * stride + stride) := by omega
        rw [e, this]
        omega
      have hmin : min (8 * strlen p - pos) M = min (8 * strlen p - (pos + 1)) (M - 1) + 1 := by
        omega
      obtain ⟨rgb1, hrun, hbits, hframe⟩ := ih
        (store rgb i (if (p.getD (pos / 8) 0 >>> (7 - pos % 8)) &&& 1 ≠ 0 then rgb i ||| 1
          else rgb i &&& 254))
        (i + stride) (pos + 1) (M - 1) (by omega) hM' (by omega)
      have hnext : (if pos % 8 + 1 = 8 then
            hideLoop stride s fuel
              (store rgb i (if (p.getD (pos / 8) 0 >>> (7 - pos % 8)) &&& 1 ≠ 0 then rgb i ||| 1
                else rgb i &&& 254))
              (i + stride) 0 (deref (p.drop (pos / 8 + 1))) (p.drop (pos / 8 + 1)).tail
          else
            hideLoop stride s fuel
              (store rgb i (if (p.getD (pos / 8) 0 >>> (7 - pos % 8)) &&& 1 ≠ 0 then rgb i ||| 1
                else rgb i &&& 254))
              (i + stride) (pos % 8 + 1) (p.getD (pos / 8) 0) (p.drop (pos / 8 + 1)))
          = hideLoop stride s fuel
              (store rgb i (if (p.getD (pos / 8) 0 >>> (7 - pos % 8)) &&& 1 ≠ 0 then rgb i ||| 1
                else rgb i &&& 254))
              (i + stride) ((pos + 1) % 8) (p.getD ((pos + 1) / 8) 0)
              (p.drop ((pos + 1) / 8 + 1)) := by
        by_cases h8 : pos % 8 + 1 = 8
        · have e1 : (pos + 1) % 8 = 0 := by omega
          have e2 : (pos + 1) / 8 = pos / 8 + 1 := by omega
          rw [if_pos h8, e1, e2, deref_drop, List.tail_drop]
        · have e1 : (pos + 1) % 8 = pos % 8 + 1 := by omega
          have e2 : (pos + 1) / 8 = pos / 8 := by omega
          rw [if_neg h8, e1, e2]
      rw [if_pos hcond, hnext, hrun, hmin]
      refine ⟨rgb1, ?_, ?_, ?_⟩
      · have e1 : i + stride + min (8 * strlen p - (pos + 1)) (M - 1) * stride
            = i + (min (8 * strlen p - (pos + 1)) (M - 1) + 1) * stride := by
          rw [Nat.add_mul, Nat.one_mul]; omega
        have e2 : pos + 1 + min (8 * strlen p - (pos + 1)) (M - 1)
            = pos + (min (8 * strlen p - (pos + 1)) (M - 1) + 1) := by omega
        rw [e1, e2]
      · intro k hk
        cases k with
        | zero =>
          have h0 : rgb1 i = _ := hframe i (by
            intro k _
            have : 0 < stride + k * stride := by omega
            omega)
          simp only [Nat.zero_mul, Nat.add_zero]
          rw [h0]
          simp [store, putLsb, payloadBit]
        | succ k =>
          have e : i + (k + 1) * stride = i + stride + k * stride := by
            rw [Nat.add_mul, Nat.one_mul]; omega
          have hne : i + stride + k * stride ≠ i := by omega
          rw [e, hbits k (by omega)]
          have e3 : pos + 1 + k = pos + (k + 1) := by omega
          rw [e3]
          simp [store, hne]
      · intro a ha
        have h1 : rgb1 a = _ := hframe a (by
          intro k hk
          have := ha (k + 1) (by omega)
          rw [Nat.add_mul, Nat.one_mul] at this
          omega)
        have hne : a ≠ i := by
          have := ha 0 (by omega)
          simpa using this
        rw [h1]
        simp [store, hne]
    · have hmin : min (8 * strlen p - pos) M = 0 := by
        by_contra h0
        apply hcond
        constructor
        · exact hi.2 (by omega)
        · exact hc.2 (by omega)
      rw [if_neg hcond, hmin]
      exact ⟨rgb, by simp, by intro k hk; omega, by intro a _; rfl⟩

/-- The second loop of `hide` clears the least-significant bit of every slot
from `i` on that lies below the bound, and stores at slot indices only. -/
theorem sentinelLoop_run (stride s : Nat) (hstride : 1 ≤ stride) :
    ∀ fuel rgb i j, (s - i) + (if j ≤ 8 then 2 else 1) ≤ fuel →
      ∃ rgb1, sentinelLoop stride s fuel rgb i j = some rgb1
        ∧ (∀ k, i + k * stride < s → rgb1 (i + k * stride) = rgb (i + k * stride) &&& 254)
        ∧ (∀ a, (∀ k, a ≠ i + k * stride) → rgb1 a = rgb a) := by
  intro fuel
  induction fuel with
  | zero => intro rgb i j hf; split at hf <;> omega
  | succ fuel ih =>
    intro rgb i j hf
    rw [sentinelLoop_succ]
    by_cases hcond : i < s ∨ j = 8
    · have hf' : (s - (i + stride)) + (if j + 1 ≤ 8 then 2 else 1) ≤ fuel := by
        split at hf <;> split <;> omega
      obtain ⟨rgb1, hrun, hbits, hframe⟩ := ih (store rgb i (rgb i &&& 254)) (i + stride) (j + 1) hf'
      rw [if_pos hcond, hrun]
      refine ⟨rgb1, rfl, ?_, ?_⟩
      · intro k hk
        cases k with
        | zero =>
          have h0 : rgb1 i = _ := hframe i (by
            intro k
            have : 0 < stride + k * stride := by omega
            omega)
          simp only [Nat.zero_mul, Nat.add_zero]
          rw [h0]
          simp [store]
        | succ k =>
          have e : i + (k + 1) * stride = i + stride + k * stride := by
            rw [Nat.add_mul, Nat.one_mul]; omega
          have hne : i + stride + k * stride ≠ i := by omega
          rw [e] at hk ⊢
          rw [hbits k hk]
          simp [store, hne]
      · intro a ha
        have h1 : rgb1 a = _ := hframe a (by
          intro k
          have := ha (k + 1)
          rw [Nat.add_mul, Nat.one_mul] at this
          omega)
        have hne : a ≠ i := by
          have := ha 0
          simpa using this
        rw [h1]
        simp [store, hne]
    · rw [if_neg hcond]
      refine ⟨rgb, rfl, ?_, fun a _ => rfl⟩
      intro k hk
      have : i ≤ i + k * stride := Nat.le_add_right _ _
      omega

theorem and_254_mod_two (x : Nat) : (x &&& 254) % 2 = 0 := by
  rw [← Nat.and_one_is_mod, Nat.and_assoc]
  have h : (254 : Nat) &&& 1 = 0 := by decide
  rw [h, Nat.and_zero]

theorem payloadBit_lt_two (str : List Nat) (m : Nat) : payloadBit str m < 2 := by
  unfold payloadBit
  rw [Nat.and_one_is_mod]
  exact Nat.mod_lt _ (by omega)

theorem payloadBit_eq (str : List Nat) (m : Nat) :
    payloadBit str m = str.getD (m / 8) 0 / 2 ^ (7 - m % 8) % 2 := by
  unfold payloadBit
  rw [Nat.and_one_is_mod, Nat.shiftRight_eq_div_pow]

theorem putLsb_mod_two (v b : Nat) (hb : b < 2) : putLsb v b % 2 = b := by
  unfold putLsb
  by_cases h : b = 0
  · subst h
    simp [and_254_mod_two]
  · have h1 : b = 1 := by omega
    subst h1
    simp

theorem putLsb_div_two (v b : Nat) (hv : v < 256) : putLsb v b / 2 = v / 2 := by
  unfold putLsb
  split
  · rw [Nat.or_div_two]
    simp
  · rw [Nat.and_div_two]
    have : (254 : Nat) / 2 = 2 ^ 7 - 1 := by decide
    rw [this, Nat.and_pow_two_sub_one_eq_mod]
    apply Nat.mod_eq_of_lt
    omega

/-- A call of `hide` with `stride ≥ 1` and a C string whose span fits below
the bound: the call returns without throwing, every payload bit is in its
slot, and every later slot below the bound has a zero bit. -/
theorem hide_run (img : SteganographicImage) (str : List Nat) (hstride : 1 ≤ img.stride)
    (hcap : requiredSpan img.start img.stride (strlen str) ≤ img.s) :
    ∃ r, hide img str = some r ∧ r.threw = false
      ∧ r.img.start = img.start ∧ r.img.stride = img.stride ∧ r.img.s = img.s
      ∧ (∀ k, k < 8 * strlen str →
          r.img.rgb (img.start + k * img.stride)
            = putLsb (img.rgb (img.start + k * img.stride)) (payloadBit str k))
      ∧ (∀ k, 8 * strlen str ≤ k → img.start + k * img.stride < img.s →
          r.img.rgb (img.start + k * img.stride) % 2 = 0) := by
  unfold requiredSpan at hcap
  obtain ⟨M, _, hM⟩ := exists_slotCount img.start img.stride img.s hstride
  have hspan : (8 * (strlen str + 1) - 1) = 8 * strlen str + 7 := by omega
  rw [hspan] at hcap
  have hM8 : 8 * strlen str + 7 < M := (hM _).1 (by omega)
  have hLs : strlen str * img.stride ≤ (8 * strlen str + 7) * img.stride :=
    Nat.mul_le_mul_right _ (by omega)
  have hthrow : ¬ (img.start + strlen str * img.stride > img.s) := by omega
  have hmin : min (8 * strlen str - 0) M = 8 * strlen str := by omega
  obtain ⟨rgb1, hrun, hbits, hframe⟩ := hideLoop_run img.stride img.s hstride str
    (8 * str.length + 1) img.rgb img.start 0 M (by omega) hM
    (by have := strlen_le_length str; omega)
  rw [hmin] at hrun hbits hframe
  have hdiv : (0 + 8 * strlen str) / 8 = strlen str := by omega
  simp only [Nat.zero_mod, Nat.zero_div, Nat.zero_add, ← (deref_tail str).1,
    ← (deref_tail str).2] at hrun hbits
  rw [Nat.mul_div_cancel_left _ (by omega : 0 < 8), getD_strlen] at hrun
  obtain ⟨rgb2, hrun2, hbits2, hframe2⟩ := sentinelLoop_run img.stride img.s hstride
    (img.s + 2) rgb1 (img.start + 8 * strlen str * img.stride) 0 (by simp)
  refine ⟨⟨false, { img with rgb := rgb2 }⟩, ?_, rfl, rfl, rfl, rfl, ?_, ?_⟩
  · unfold hide
    rw [if_neg hthrow, hrun]
    simp only [if_true, hrun2]
  · intro k hk
    have hlt : k * img.stride < 8 * strlen str * img.stride :=
      Nat.mul_lt_mul_of_pos_right hk (by omega)
    show rgb2 _ = _
    rw [hframe2 _ (by intro k'; omega), hbits k hk]
  · intro k hk hs
    obtain ⟨d, rfl⟩ : ∃ d, k = 8 * strlen str + d := ⟨k - 8 * strlen str, by omega⟩
    have e : img.start + (8 * strlen str + d) * img.stride
        = img.start + 8 * strlen str * img.stride + d * img.stride := by
      rw [Nat.add_mul]; omega
    show rgb2 _ % 2 = 0
    rw [e] at hs ⊢
    rw [hbits2 d hs, and_254_mod_two]

set_option maxRecDepth 100000 in
theorem decodeBits_bits_of_byte :
    ∀ v < 256, decodeBits ((List.range 8).map (fun t => (v >>> (7 - t)) &&& 1)) 0 = v := by
  decide

theorem strlen_eq_length : ∀ p : List Nat, (∀ b ∈ p, b ≠ 0) → strlen p = p.length
  | [], _ => rfl
  | c :: rest, h => by
    unfold strlen
    have hc : c ≠ 0 := h c (List.mem_cons_self _ _)
    simp only [hc, if_false, List.length_cons]
    rw [strlen_eq_length rest (fun b hb => h b (List.mem_cons_of_mem _ hb))]

/-- The loop of `recover` on a memory whose slots hold the bits of the
zero-free bytes `p` followed by eight zero bits: entered at byte number `j`,
it appends the bytes of `p` from `j` on and stops at the zero byte. -/
theorem recoverLoop_payload (rgb : Nat → Nat) (start stride s : Nat) (p : List Nat)
    (hp : ∀ b ∈ p, b ≠ 0 ∧ b < 256)
    (hbits : ∀ k, k < 8 * p.length → rgb (start + k * stride) % 2 = payloadBit p k)
    (hzero : ∀ k, 8 * p.length ≤ k → k < 8 * p.length + 8 → rgb (start + k * stride) % 2 = 0)
    (hfit : start + (8 * p.length + 7) * stride < s) :
    ∀ n j fuel acc, j + n = p.length → 8 * (n + 1) ≤ fuel →
      recoverLoop rgb stride s fuel (start + 8 * j * stride) 0 0 acc = some (acc ++ p.drop j) := by
  have haddr : ∀ j t, start + 8 * j * stride + t * stride = start + (8 * j + t) * stride := by
    intro j t; rw [Nat.add_mul (8 * j) t stride]; omega
  have hgroup : ∀ j fuel acc, j ≤ p.length →
      recoverLoop rgb stride s (fuel + 8) (start + 8 * j * stride) 0 0 acc =
        if decodeBits ((List.range 8).map (fun t => rgb (start + 8 * j * stride + t * stride) % 2)) 0
            = 0 then some acc
        else recoverLoop rgb stride s fuel (start + 8 * j * stride + 8 * stride) 0 0
          (acc ++ [decodeBits
            ((List.range 8).map (fun t => rgb (start + 8 * j * stride + t * stride) % 2)) 0]) := by
    intro j fuel acc hj
    have h7 : start + 8 * j * stride + (8 - 1) * stride < s := by
      show start + 8 * j * stride + 7 * stride < s
      rw [haddr]
      have : (8 * j + 7) * stride ≤ (8 * p.length + 7) * stride :=
        Nat.mul_le_mul_right _ (by omega)
      omega
    exact recoverLoop_group rgb stride s 8 fuel (start + 8 * j * stride) 0 acc
      (by omega) (by omega) h7
  intro n
  induction n with
  | zero =>
    intro j fuel acc hj hf
    obtain ⟨fuel1, rfl⟩ : ∃ fuel1, fuel = fuel1 + 8 := ⟨fuel - 8, by omega⟩
    have hlist : (List.range 8).map (fun t => rgb (start + 8 * j * stride + t * stride) % 2)
        = (List.range 8).map (fun _ => 0) := by
      apply List.map_congr_left
      intro t ht
      rw [List.mem_range] at ht
      rw [haddr]
      exact hzero _ (by omega) (by omega)
    have hj0 : p.drop j = [] := List.drop_eq_nil_of_le (by omega)
    rw [hgroup j fuel1 acc (by omega), hlist, hj0, List.append_nil]
    rfl
  | succ n ih =>
    intro j fuel acc hj hf
    obtain ⟨fuel1, rfl⟩ : ∃ fuel1, fuel = fuel1 + 8 := ⟨fuel - 8, by omega⟩
    have hjlt : j < p.length := by omega
    have hget : p.getD j 0 = p[j] := by
      rw [List.getD_eq_getElem?_getD, List.getElem?_eq_getElem hjlt]
      rfl
    have hmem := hp p[j] (List.getElem_mem _)
    have hlist : (List.range 8).map (fun t => rgb (start + 8 * j * stride + t * stride) % 2)
        = (List.range 8).map (fun t => (p[j] >>> (7 - t)) &&& 1) := by
      apply List.map_congr_left
      intro t ht
      rw [List.mem_range] at ht
      rw [haddr, hbits _ (by omega)]
      unfold payloadBit
      have e1 : (8 * j + t) / 8 = j := by omega
      have e2 : (8 * j + t) % 8 = t := by omega
      rw [e1, e2, hget]
    have hnext : start + 8 * j * stride + 8 * stride = start + 8 * (j + 1) * stride := by
      rw [Nat.mul_add 8 j 1, Nat.add_mul]; omega
    rw [hgroup j fuel1 acc (by omega), hlist, decodeBits_bits_of_byte _ hmem.2, if_neg hmem.1,
      hnext, ih (j + 1) fuel1 _ (by omega) (by omega), List.append_assoc]
    congr 2
    rw [List.singleton_append]
    exact (List.drop_eq_getElem_cons hjlt).symm

/-! ## Theorems: `SteganographicImage` -/

/-- C1.  Round trip: with `stride ≥ 1`, whatever the memory behind `rgb`
holds, for a payload `p` of non-zero bytes whose required span
`start + (8 * (len p + 1) - 1) * stride + 1` is at most the bound `s`, the
call `hide(p)` returns without throwing and `recover` on the resulting state
returns exactly `p`.  (When the span equals `s`, `hide` also stores once at
an offset past the bound, see `hide_sentinel_clears_past_eight_slots`;
`recover` reads below the bound only.) -/
theorem recover_hide_round_trip (img : SteganographicImage) (p : List Nat)
    (hstride : 1 ≤ img.stride) (hp : ∀ b ∈ p, b ≠ 0 ∧ b < 256)
    (hcap : requiredSpan img.start img.stride p.length ≤ img.s) :
    ∃ r, hide img p = some r ∧ r.threw = false ∧ recover r.img = some p := by
  have hlen : strlen p = p.length := strlen_eq_length p (fun b hb => (hp b hb).1)
  obtain ⟨r, hr, hthrew, hstart, hstr, hs, hbits, hzero⟩ :=
    hide_run img p hstride (by rw [hlen]; exact hcap)
  refine ⟨r, hr, hthrew, ?_⟩
  rw [hlen] at hbits hzero
  unfold requiredSpan at hcap
  have hspan : (8 * (p.length + 1) - 1) = 8 * p.length + 7 := by omega
  rw [hspan] at hcap
  have hmono : ∀ k, k < 8 * p.length + 8 → img.start + k * img.stride < img.s := by
    intro k hk
    have : k * img.stride ≤ (8 * p.length + 7) * img.stride := Nat.mul_le_mul_right _ (by omega)
    omega
  have hs8 : 8 * p.length + 8 ≤ img.s := by
    have : (8 * p.length + 7) * 1 ≤ (8 * p.length + 7) * img.stride :=
      Nat.mul_le_mul_left _ hstride
    omega
  have := recoverLoop_payload r.img.rgb img.start img.stride img.s p hp
    (fun k hk => by rw [hbits k hk, putLsb_mod_two _ _ (payloadBit_lt_two p k)])
    (fun k hk1 hk2 => hzero k hk1 (hmono k hk2))
    (by have := hmono (8 * p.length + 7) (by omega); omega)
    p.length 0 (img.s + 9) [] (by omega) (by omega)
  unfold recover
  rw [hstart, hstr, hs]
  simpa using this

/-- The round trip of C1 at the payload `"AB"` in a carrier of 40 bytes, all
of them 255, with `start = 3` and `stride = 1`. -/
theorem recover_hide_round_trip_witness :
    ∃ r, hide ⟨3, 1, 40, fun _ => 255⟩ [65, 66] = some r ∧ r.threw = false
      ∧ recover r.img = some [65, 66] :=
  recover_hide_round_trip ⟨3, 1, 40, fun _ => 255⟩ [65, 66] (by decide) (by decide) (by decide)

/-- C3.  Extraction: with `stride ≥ 1`, `recover` returns (it does not run
out of fuel and has no failure exit) the bytes of the extraction contract:
the least-significant bits of the carrier bytes at `start + i * stride`,
`i = 0, 1, 2, ...` while the index is below `s`, grouped 8 at a time
most-significant bit first, a trailing group of fewer than 8 bits dropped,
the decoded bytes kept up to but not including the first zero.  The carrier
is unchanged: `recover` performs no store. -/
theorem recover_extracts (img : SteganographicImage) (hstride : 1 ≤ img.stride) :
    recover img = some (extractSpec img) :=
  recover_eq_some_extractSpec img hstride

/-- The extraction of C3 on a carrier of 20 bytes, all of them 255, with
`start = 1` and `stride = 2`. -/
theorem recover_extracts_witness :
    recover ⟨1, 2, 20, fun _ => 255⟩ = some (extractSpec ⟨1, 2, 20, fun _ => 255⟩) :=
  recover_extracts ⟨1, 2, 20, fun _ => 255⟩ (by decide)

/-- C4.  Placement and bit order: for a C string of length `L = strlen str`
within capacity and a bit index `i < 8 * L`, `hide` returns without throwing,
and afterwards the carrier byte at `start + i * stride` has as its
least-significant bit the bit `7 - i mod 8` of payload byte `i / 8`, and has
the seven upper bits of the original carrier byte. -/
theorem hide_places_payload_bits (img : SteganographicImage) (str : List Nat) (i : Nat)
    (hstride : 1 ≤ img.stride)
    (hcap : requiredSpan img.start img.stride (strlen str) ≤ img.s)
    (hbyte : img.rgb (img.start + i * img.stride) < 256)
    (hi : i < 8 * strlen str) :
    ∃ r, hide img str = some r ∧ r.threw = false
      ∧ r.img.rgb (img.start + i * img.stride) % 2 = str.getD (i / 8) 0 / 2 ^ (7 - i % 8) % 2
      ∧ r.img.rgb (img.start + i * img.stride) / 2 = img.rgb (img.start + i * img.stride) / 2 := by
  obtain ⟨r, hr, hthrew, _, _, _, hbits, _⟩ := hide_run img str hstride hcap
  refine ⟨r, hr, hthrew, ?_, ?_⟩
  · rw [hbits i hi, putLsb_mod_two _ _ (payloadBit_lt_two str i), payloadBit_eq]
  · rw [hbits i hi, putLsb_div_two _ _ hbyte]

/-- The placement of C4 at bit 9 of the payload `"AB"`, `start = 3`,
`stride = 2`, in a carrier of 60 bytes, all of them 255. -/
theorem hide_places_payload_bits_witness :
    ∃ r, hide ⟨3, 2, 60, fun _ => 255⟩ [65, 66] = some r ∧ r.threw = false
      ∧ r.img.rgb (3 + 9 * 2) % 2 = [65, 66].getD (9 / 8) 0 / 2 ^ (7 - 9 % 8) % 2
      ∧ r.img.rgb (3 + 9 * 2) / 2 = (fun _ => 255) (3 + 9 * 2) / 2 :=
  hide_places_payload_bits ⟨3, 2, 60, fun _ => 255⟩ [65, 66] 9 (by decide) (by decide)
    (by decide) (by decide)

/-! ## Theorems: the repository, its construction and its operations -/

/-- C11 (the code at a failing input).  The constructor called with size 4
builds four zero bytes in a local variable and leaves the member `bytes`
empty: the secret buffer of the new repository has length 0, not 4. -/
theorem newGrailRepository_buffer_empty :
    (newGrailRepositoryBody 4).1 = [0, 0, 0, 0]
    ∧ (newGrailRepository 4).bytes = []
    ∧ (newGrailRepository 4).bytes.length ≠ 4 := by
  decide

theorem generate_length (rbe : Nat → Nat × Nat) :
    ∀ (l : List Nat) (st : Nat), (generate rbe st l).length = l.length
  | [], _ => rfl
  | _ :: rest, st => by
    simp only [generate, List.length_cons]
    rw [generate_length rbe rest]

/-- C12 (counterexample).  `restoreFromCloud` on a repository whose buffer
has the 4 bytes `[1, 2, 3, 4]`, with a downloaded image of bound 16 whose
slots hold the bits of the byte 65 and then zero bits: the call returns, the
buffer is `[65]`, and its length is 1, not 4. -/
theorem restoreFromCloud_changes_length :
    (restoreFromCloud (fun files _ _ => files) ⟨[1, 2, 3, 4], "pw", []⟩
        ⟨fun _ => some ⟨16, fun k => if k = 1 ∨ k = 7 then 255 else 254⟩, []⟩ 0 1 "img").outcome
      = Outcome.returned
    ∧ (restoreFromCloud (fun files _ _ => files) ⟨[1, 2, 3, 4], "pw", []⟩
        ⟨fun _ => some ⟨16, fun k => if k = 1 ∨ k = 7 then 255 else 254⟩, []⟩ 0 1 "img").repo.bytes
      = [65]
    ∧ (restoreFromCloud (fun files _ _ => files) ⟨[1, 2, 3, 4], "pw", []⟩
        ⟨fun _ => some ⟨16, fun k => if k = 1 ∨ k = 7 then 255 else 254⟩, []⟩ 0 1
        "img").repo.bytes.length
      ≠ ([1, 2, 3, 4] : List Nat).length := by
  decide

/-- C12 (amended).  Each of `unlock`, `scramble`, `destroy`, `backupToCloud`,
`generateKey`, `deleteKey` and `proveIdentity` leaves the secret buffer with
the length it had before the call, for every state and all arguments. -/
theorem bytes_length_kept (r : GrailRepository) (decrypt_file : String → String → List Nat)
    (rbe : Nat → Nat × Nat) (seed : Nat)
    (hide_secret : SteganographicImage → List Nat → Option HideResult)
    (write_webp : SteganographicImage → String → Files → Files) (w : World)
    (password area img_name regionName siteName : String) (offset stride nonce cipher : Nat) :
    (unlock decrypt_file r password area).1.bytes.length = r.bytes.length
    ∧ (scramble rbe seed r area).bytes.length = r.bytes.length
    ∧ (destroy r).bytes.length = r.bytes.length
    ∧ (backupToCloud hide_secret write_webp r w offset stride img_name).repo.bytes.length
        = r.bytes.length
    ∧ (generateKey r regionName siteName cipher).bytes.length = r.bytes.length
    ∧ (deleteKey r siteName).1.bytes.length = r.bytes.length
    ∧ (proveIdentity r password nonce area).2.bytes.length = r.bytes.length := by
  refine ⟨rfl, ?_, ?_, ?_, ?_, rfl, rfl⟩
  · simp [scramble, generate_length]
  · simp [destroy]
  · unfold backupToCloud
    split
    · rfl
    · split
      · rfl
      · split <;> rfl
  · unfold generateKey
    split <;> rfl

/-- C13 (counterexample).  `unlock` on a repository whose buffer is `[0, 0]`,
with a cipher that decrypts the area to `[1, 2]`: after the call the buffer
is `[0, 0]`, not the decrypted bytes. -/
theorem unlock_does_not_store_plaintext :
    (unlock (fun _ _ => [1, 2]) ⟨[0, 0], "", []⟩ "pw" "area").1.bytes = [0, 0]
    ∧ (unlock (fun _ _ => [1, 2]) ⟨[0, 0], "", []⟩ "pw" "area").1.bytes
      ≠ (fun (_ _ : String) => ([1, 2] : List Nat)) "pw" "area" := by
  decide

/-- C13 (amended).  After `unlock(password, factor, area)` the repository
holds `password`, its secret buffer and its key store are what they were, and
the bytes decrypted from `area` with the cipher of `password` are in the file
`"tmp"`. -/
theorem unlock_keeps_bytes (decrypt_file : String → String → List Nat) (r : GrailRepository)
    (password area : String) :
    (unlock decrypt_file r password area).1.bytes = r.bytes
    ∧ (unlock decrypt_file r password area).1.password = password
    ∧ (unlock decrypt_file r password area).1.siteKeys = r.siteKeys
    ∧ (unlock decrypt_file r password area).2 = ("tmp", decrypt_file password area) :=
  ⟨rfl, rfl, rfl, rfl⟩

/-- An exception of the embedding ends `backupToCloud` before `write_webp`
and `upload`: the calls made are those made before. -/
theorem backupToCloud_threw_no_calls
    (hide_secret : SteganographicImage → List Nat → Option HideResult)
    (write_webp : SteganographicImage → String → Files → Files) (r : GrailRepository)
    (w : World) (offset stride : Nat) (img_name : String)
    (h : (backupToCloud hide_secret write_webp r w offset stride img_name).outcome
      ≠ Outcome.returned) :
    (backupToCloud hide_secret write_webp r w offset stride img_name).world.calls = w.calls := by
  unfold backupToCloud at h ⊢
  cases hs : newSteganographicImage w.files img_name offset stride with
  | none => rfl
  | some steg =>
    cases hh : hide_secret steg r.bytes with
    | none => simp only [hh]
    | some hr =>
      by_cases ht : hr.threw = true
      · simp only [hh, ht, if_true]
      · simp [hs, hh, ht] at h

/-- C15 (the code at a failing input).  The secret `"AB"`, a carrier image of
bound 16, `offset = 0`, `stride = 1`, with `hide` as the embedding: the
required span is 24, more than 16, and yet `backupToCloud` returns without
an exception and has made the calls `write_webp` and `upload`. -/
theorem backupToCloud_over_capacity_uploads :
    requiredSpan 0 1 2 = 24
    ∧ (backupToCloud hide (fun _ _ files => files) ⟨[65, 66], "pw", []⟩
        ⟨fun _ => some ⟨16, fun _ => 255⟩, []⟩ 0 1 "img").outcome = Outcome.returned
    ∧ (backupToCloud hide (fun _ _ files => files) ⟨[65, 66], "pw", []⟩
        ⟨fun _ => some ⟨16, fun _ => 255⟩, []⟩ 0 1 "img").world.calls
      = [Call.write_webp "img", Call.upload "img"] := by
  decide

/-! ## Theorems: `SteganographicImage`, further claims -/

/-- C20 (the code at a failing input).  Carrier bound 48, `start = 2`,
`stride = 3`, payload `"A"`: the required span is 48, equal to the bound, and
`hide` stores at offset `2 + 16 * 3 = 50`, which is not below the bound: the
byte there goes from 255 to 254.  With bound 16, `start = 0`, `stride = 1`
the store is at offset 16. -/
theorem hide_exact_fit_stores_past_bound :
    requiredSpan 2 3 1 = 48
    ∧ (hide ⟨2, 3, 48, fun _ => 255⟩ [65]).map (fun r => (r.threw, r.img.rgb 50))
      = some (false, 254)
    ∧ requiredSpan 0 1 1 = 16
    ∧ (hide ⟨0, 1, 16, fun _ => 255⟩ [65]).map (fun r => (r.threw, r.img.rgb 16))
      = some (false, 254) := by
  decide

/-! ## Theorems: the key store under sequences of calls -/

theorem generateKeyLoop_eq_none_iff (regionName siteName : String) (cipher : KeyHandle) :
    ∀ ks : List Region, generateKeyLoop regionName siteName cipher ks = none
      ↔ regionName ∉ ks.map Prod.fst
  | [] => by simp [generateKeyLoop]
  | region :: rest => by
    unfold generateKeyLoop
    by_cases h : region.1 = regionName
    · simp [h]
    · have ih := generateKeyLoop_eq_none_iff regionName siteName cipher rest
      simp only [h, if_false, ih, List.map_cons, List.mem_cons, not_or]
      constructor
      · intro h2
        exact ⟨fun e => h e.symm, h2⟩
      · intro h2
        exact h2.2

/-- The key store after `generateKey` is the store before it, or that store
with an empty bucket appended for a region name it did not have. -/
theorem generateKey_siteKeys (r : GrailRepository) (regionName siteName : String)
    (cipher : KeyHandle) :
    (generateKey r regionName siteName cipher).siteKeys = r.siteKeys
    ∨ (regionName ∉ r.siteKeys.map Prod.fst
        ∧ (generateKey r regionName siteName cipher).siteKeys
          = r.siteKeys ++ [(regionName, [])]) := by
  unfold generateKey
  cases h : generateKeyLoop regionName siteName cipher r.siteKeys with
  | some _ => left; rfl
  | none =>
    right
    exact ⟨(generateKeyLoop_eq_none_iff regionName siteName cipher r.siteKeys).1 h, rfl⟩

/-- Distinct region names and distinct site names in every bucket are kept by
every sequence of `generateKey` and `deleteKey` calls. -/
theorem runKeyOps_keeps_distinct :
    ∀ (ops : List KeyOp) (r : GrailRepository),
      (r.siteKeys.map Prod.fst).Nodup → (∀ region ∈ r.siteKeys, (region.2.map Prod.fst).Nodup) →
      ((runKeyOps ops r).siteKeys.map Prod.fst).Nodup
        ∧ ∀ region ∈ (runKeyOps ops r).siteKeys, (region.2.map Prod.fst).Nodup
  | [], r, h1, h2 => ⟨h1, h2⟩
  | KeyOp.generateKey regionName siteName cipher :: ops, r, h1, h2 => by
    unfold runKeyOps
    apply runKeyOps_keeps_distinct ops
    · rcases generateKey_siteKeys r regionName siteName cipher with h | ⟨hnot, h⟩
      · rw [h]; exact h1
      · rw [h, List.map_append, List.nodup_append]
        refine ⟨h1, by simp, ?_⟩
        intro a ha hb
        simp only [List.map_cons, List.map_nil, List.mem_singleton] at hb
        subst hb
        exact hnot ha
    · intro region hregion
      rcases generateKey_siteKeys r regionName siteName cipher with h | ⟨_, h⟩
      · rw [h] at hregion; exact h2 region hregion
      · rw [h, List.mem_append] at hregion
        rcases hregion with hregion | hregion
        · exact h2 region hregion
        · simp only [List.mem_singleton] at hregion
          subst hregion
          simp
  | KeyOp.deleteKey siteName :: ops, r, h1, h2 => by
    unfold runKeyOps
    exact runKeyOps_keeps_distinct ops (deleteKey r siteName).1 h1 h2

/-- Every bucket of the key store is empty after any sequence of `generateKey`
and `deleteKey` calls on a store whose buckets are empty: `generateKey`
leaves the store as it is or appends an empty bucket, and `deleteKey` leaves
the store as it is.  So no store built by calls from the empty store holds a
key for a site. -/
theorem runKeyOps_buckets_empty :
    ∀ (ops : List KeyOp) (r : GrailRepository),
      (∀ region ∈ r.siteKeys, region.2 = []) →
      ∀ region ∈ (runKeyOps ops r).siteKeys, region.2 = []
  | [], _, h => h
  | KeyOp.generateKey regionName siteName cipher :: ops, r, h => by
    unfold runKeyOps
    apply runKeyOps_buckets_empty ops
    intro region hregion
    rcases generateKey_siteKeys r regionName siteName cipher with h1 | ⟨_, h1⟩
    · rw [h1] at hregion; exact h region hregion
    · rw [h1, List.mem_append] at hregion
      rcases hregion with hregion | hregion
      · exact h region hregion
      · simp only [List.mem_singleton] at hregion
        subst hregion
        rfl
  | KeyOp.deleteKey siteName :: ops, r, h => by
    unfold runKeyOps
    exact runKeyOps_buckets_empty ops (deleteKey r siteName).1 h

/-- C17.  In the key store reached from the empty store by any sequence of
`generateKey` and `deleteKey` calls the region names of the buckets are
pairwise distinct, and the site names within every bucket are pairwise
distinct, so there is at most one key per (region, site) pair. -/
theorem reachable_store_no_duplicates (ops : List KeyOp) (bytes : List Nat) (password : String) :
    ((runKeyOps ops ⟨bytes, password, []⟩).siteKeys.map Prod.fst).Nodup
    ∧ ∀ region ∈ (runKeyOps ops ⟨bytes, password, []⟩).siteKeys,
        (region.2.map Prod.fst).Nodup :=
  runKeyOps_keeps_distinct ops ⟨bytes, password, []⟩ (by simp) (by simp)

/-! ## Theorems: a payload with a zero byte -/

theorem strlen_takeWhile : ∀ p : List Nat,
    strlen (p.takeWhile (fun c => decide (c ≠ 0))) = strlen p
      ∧ (p.takeWhile (fun c => decide (c ≠ 0))).length = strlen p
  | [] => ⟨rfl, rfl⟩
  | c :: rest => by
    by_cases hc : c = 0
    · subst hc
      simp [strlen]
    · have ih := strlen_takeWhile rest
      simp only [List.takeWhile_cons, hc, ne_eq, not_false_eq_true, decide_True, if_true, strlen,
        if_false, List.length_cons, ih.1, ih.2, and_self]

theorem getD_takeWhile : ∀ (p : List Nat) (k : Nat), k < strlen p →
    (p.takeWhile (fun c => decide (c ≠ 0))).getD k 0 = p.getD k 0
  | [], k, h => by simp [strlen] at h
  | c :: rest, k, h => by
    unfold strlen at h
    by_cases hc : c = 0
    · simp [hc] at h
    · simp only [hc, if_false] at h
      simp only [List.takeWhile_cons, hc, ne_eq, not_false_eq_true, decide_True, if_true]
      cases k with
      | zero => rfl
      | succ k =>
        rw [List.getD_cons_succ, List.getD_cons_succ]
        exact getD_takeWhile rest k (by omega)

theorem payloadBit_takeWhile (p : List Nat) (k : Nat) (hk : k < 8 * strlen p) :
    payloadBit (p.takeWhile (fun c => decide (c ≠ 0))) k = payloadBit p k := by
  unfold payloadBit
  rw [getD_takeWhile p (k / 8) (by omega)]

/-- The first loop of `hide` as `hide` enters it, for `stride ≥ 1` and `M`
slots below the bound. -/
theorem hideLoop_from_start (stride s : Nat) (hstride : 1 ≤ stride) (p : List Nat)
    (fuel : Nat) (rgb : Nat → Nat) (start M : Nat) (hM : ∀ k, start + k * stride < s ↔ k < M)
    (hf : 8 * strlen p + 1 ≤ fuel) :
    ∃ rgb1, hideLoop stride s fuel rgb start 0 (deref p) p.tail
        = some (rgb1, start + min (8 * strlen p) M * stride, p.getD (min (8 * strlen p) M / 8) 0)
      ∧ (∀ k, k < min (8 * strlen p) M →
          rgb1 (start + k * stride) = putLsb (rgb (start + k * stride)) (payloadBit p k))
      ∧ (∀ a, (∀ k, k < min (8 * strlen p) M → a ≠ start + k * stride) → rgb1 a = rgb a) := by
  obtain ⟨rgb1, hrun, hbits, hframe⟩ := hideLoop_run stride s hstride p fuel rgb start 0 M
    (by omega) hM (by omega)
  simp only [Nat.zero_mod, Nat.zero_div, Nat.zero_add, Nat.sub_zero, ← (deref_tail p).1,
    ← (deref_tail p).2] at hrun hbits hframe
  exact ⟨rgb1, hrun, hbits, hframe⟩

/-- With `stride ≥ 1`, `hide` does for a string what it does for the
characters before its first zero. -/
theorem hide_takeWhile (img : SteganographicImage) (p : List Nat) (hstride : 1 ≤ img.stride) :
    hide img (p.takeWhile (fun c => decide (c ≠ 0))) = hide img p := by
  obtain ⟨M, _, hM⟩ := exists_slotCount img.start img.stride img.s hstride
  have hlen := strlen_takeWhile p
  obtain ⟨rgb1, hrun1, hbits1, hframe1⟩ := hideLoop_from_start img.stride img.s hstride p
    (8 * p.length + 1) img.rgb img.start M hM (by have := strlen_le_length p; omega)
  obtain ⟨rgb2, hrun2, hbits2, hframe2⟩ := hideLoop_from_start img.stride img.s hstride
    (p.takeWhile (fun c => decide (c ≠ 0)))
    (8 * (p.takeWhile (fun c => decide (c ≠ 0))).length + 1) img.rgb img.start M hM
    (by rw [hlen.1, hlen.2])
  rw [hlen.1] at hrun2 hbits2 hframe2
  have hrgb : rgb2 = rgb1 := by
    funext a
    by_cases ha : ∃ k, k < min (8 * strlen p) M ∧ a = img.start + k * img.stride
    · obtain ⟨k, hk, rfl⟩ := ha
      rw [hbits1 k hk, hbits2 k hk, payloadBit_takeWhile p k (by omega)]
    · have hne : ∀ k, k < min (8 * strlen p) M → a ≠ img.start + k * img.stride :=
        fun k hk e => ha ⟨k, hk, e⟩
      rw [hframe1 a hne, hframe2 a hne]
  have hc : (p.takeWhile (fun c => decide (c ≠ 0))).getD (min (8 * strlen p) M / 8) 0
      = p.getD (min (8 * strlen p) M / 8) 0 := by
    by_cases hlt : min (8 * strlen p) M / 8 < strlen p
    · exact getD_takeWhile p _ hlt
    · have e : min (8 * strlen p) M / 8 = strlen p := by omega
      rw [e, getD_strlen p]
      have := getD_strlen (p.takeWhile (fun c => decide (c ≠ 0)))
      rw [hlen.1] at this
      exact this
  unfold hide
  rw [hrun1, hrun2, hlen.1, hrgb, hc]

/-- A call of `hide` with `stride ≥ 1` and a C string of bytes whose span fits
below the bound, followed by `recover`: the bytes recovered are the
characters of the string before its first zero. -/
theorem hide_recover_cstring (img : SteganographicImage) (str : List Nat)
    (hstride : 1 ≤ img.stride) (hbytes : ∀ b ∈ str, b < 256)
    (hcap : requiredSpan img.start img.stride (strlen str) ≤ img.s) :
    ∃ r, hide img str = some r ∧ r.threw = false
      ∧ recover r.img = some (str.takeWhile (fun c => decide (c ≠ 0))) := by
  obtain ⟨r, hr, hthrew, hstart, hstr, hs, hbits, hzero⟩ := hide_run img str hstride hcap
  refine ⟨r, hr, hthrew, ?_⟩
  have hlen := strlen_takeWhile str
  have hq : ∀ b ∈ str.takeWhile (fun c => decide (c ≠ 0)), b ≠ 0 ∧ b < 256 := by
    intro b hb
    refine ⟨?_, hbytes b ((List.takeWhile_sublist _).subset hb)⟩
    have := List.mem_takeWhile_imp hb
    simpa using this
  unfold requiredSpan at hcap
  have hspan : (8 * (strlen str + 1) - 1) = 8 * strlen str + 7 := by omega
  rw [hspan] at hcap
  have hmono : ∀ k, k < 8 * strlen str + 8 → img.start + k * img.stride < img.s := by
    intro k hk
    have : k * img.stride ≤ (8 * strlen str + 7) * img.stride :=
      Nat.mul_le_mul_right _ (by omega)
    omega
  have hs8 : 8 * strlen str + 8 ≤ img.s := by
    have : (8 * strlen str + 7) * 1 ≤ (8 * strlen str + 7) * img.stride :=
      Nat.mul_le_mul_left _ hstride
    omega
  have := recoverLoop_payload r.img.rgb img.start img.stride img.s
    (str.takeWhile (fun c => decide (c ≠ 0))) hq
    (fun k hk => by
      rw [hlen.2] at hk
      rw [hbits k hk, putLsb_mod_two _ _ (payloadBit_lt_two str k), payloadBit_takeWhile str k hk])
    (fun k hk1 hk2 => by
      rw [hlen.2] at hk1 hk2
      exact hzero k hk1 (hmono k hk2))
    (by rw [hlen.2]; have := hmono (8 * strlen str + 7) (by omega); omega)
    (strlen str) 0 (img.s + 9) [] (by rw [hlen.2]; omega) (by omega)
  unfold recover
  rw [hstart, hstr, hs]
  simpa using this

/-- C19.  A zero byte ends the message: with `stride ≥ 1`, for a payload `p`
of bytes, `hide(p)` leaves the same state, the same carrier, as `hide` of the
bytes of `p` before its first zero byte, and when the span of that part fits
below the bound (as it does when `p` as a whole is within capacity) the
call returns without throwing and `recover` afterwards returns exactly that
part.  This holds for every payload, so for one that contains a zero byte. -/
theorem hide_stops_at_zero_byte (img : SteganographicImage) (p : List Nat)
    (hstride : 1 ≤ img.stride) (hbytes : ∀ b ∈ p, b < 256)
    (hcap : requiredSpan img.start img.stride (strlen p) ≤ img.s) :
    ∃ r, hide img p = some r
      ∧ hide img (p.takeWhile (fun c => decide (c ≠ 0))) = some r
      ∧ r.threw = false
      ∧ recover r.img = some (p.takeWhile (fun c => decide (c ≠ 0))) := by
  obtain ⟨r, hr, hthrew, hrec⟩ := hide_recover_cstring img p hstride hbytes hcap
  exact ⟨r, hr, by rw [hide_takeWhile img p hstride, hr], hthrew, hrec⟩

/-- The claim C19 at the payload `"A\0B"`, whose part before the zero byte is
`"A"`, with `start = 3`, `stride = 2` and a carrier of 60 bytes, all 255. -/
theorem hide_stops_at_zero_byte_witness :
    ∃ r, hide ⟨3, 2, 60, fun _ => 255⟩ [65, 0, 66] = some r
      ∧ hide ⟨3, 2, 60, fun _ => 255⟩ ([65, 0, 66].takeWhile (fun c => decide (c ≠ 0))) = some r
      ∧ r.threw = false
      ∧ recover r.img = some ([65, 0, 66].takeWhile (fun c => decide (c ≠ 0))) :=
  hide_stops_at_zero_byte ⟨3, 2, 60, fun _ => 255⟩ [65, 0, 66] (by decide) (by decide) (by decide)

/-! ## Theorems: the exception of `hide`, termination, frame of `destroy`, `scramble` -/

/-- C21.  `hide` throws exactly when `start + L * stride > s`, `L` the length
of the payload up to its first zero byte: when the inequality holds the call
ends by the exception with the object, and so every carrier byte, as it was;
and any call that ends has thrown if and only if the inequality holds. -/
theorem hide_throws_iff (img : SteganographicImage) (str : List Nat) :
    (img.start + strlen str * img.stride > img.s → hide img str = some ⟨true, img⟩)
    ∧ (∀ r, hide img str = some r →
        (r.threw = true ↔ img.start + strlen str * img.stride > img.s)
        ∧ (r.threw = true → r.img = img)) := by
  constructor
  · intro h
    unfold hide
    rw [if_pos h]
  · intro r hr
    unfold hide at hr
    by_cases h : img.start + strlen str * img.stride > img.s
    · rw [if_pos h] at hr
      cases hr
      exact ⟨by simp [h], fun _ => rfl⟩
    · rw [if_neg h] at hr
      have hfalse : r.threw = false := by
        split at hr
        · cases hr
        · split at hr
          · split at hr
            · cases hr
            · cases hr; rfl
          · cases hr; rfl
      exact ⟨by simp [hfalse, h], by simp [hfalse]⟩

theorem hideLoop_terminates (stride s : Nat) (hstride : 1 ≤ stride) :
    ∀ fuel rgb i bit c str, s - i + 1 ≤ fuel →
      ∃ res, hideLoop stride s fuel rgb i bit c str = some res := by
  intro fuel
  induction fuel with
  | zero => intro rgb i bit c str hf; omega
  | succ fuel ih =>
    intro rgb i bit c str hf
    rw [hideLoop_succ]
    by_cases hcond : i < s ∧ c ≠ 0
    · rw [if_pos hcond]
      split
      · exact ih _ _ _ _ _ (by omega)
      · exact ih _ _ _ _ _ (by omega)
    · rw [if_neg hcond]
      exact ⟨_, rfl⟩

theorem recoverLoop_terminates (rgb : Nat → Nat) (stride s : Nat) (hstride : 1 ≤ stride) :
    ∀ fuel i bit c acc, s - i + 1 ≤ fuel →
      ∃ out, recoverLoop rgb stride s fuel i bit c acc = some out := by
  intro fuel
  induction fuel with
  | zero => intro i bit c acc hf; omega
  | succ fuel ih =>
    intro i bit c acc hf
    rw [recoverLoop_succ]
    by_cases hi : i < s
    · rw [if_pos hi]
      by_cases h8 : bit + 1 = 8
      · rw [if_pos h8]
        by_cases hz : (if rgb i &&& 1 ≠ 0 then c ||| 1 else c) = 0
        · rw [if_pos hz]
          exact ⟨_, rfl⟩
        · rw [if_neg hz]
          exact ih _ _ _ _ (by omega)
      · rw [if_neg h8]
        exact ih _ _ _ _ (by omega)
    · rw [if_neg hi]
      exact ⟨_, rfl⟩

/-- With `stride ≥ 1` every call of `hide` ends. -/
theorem hide_returns (img : SteganographicImage) (str : List Nat) (hstride : 1 ≤ img.stride) :
    ∃ r, hide img str = some r := by
  obtain ⟨M, _, hM⟩ := exists_slotCount img.start img.stride img.s hstride
  obtain ⟨rgb1, hrun, _, _⟩ := hideLoop_from_start img.stride img.s hstride str
    (8 * str.length + 1) img.rgb img.start M hM (by have := strlen_le_length str; omega)
  obtain ⟨rgb2, hrun2, _, _⟩ := sentinelLoop_run img.stride img.s hstride (img.s + 2) rgb1
    (img.start + min (8 * strlen str) M * img.stride) 0 (by simp)
  unfold hide
  by_cases h : img.start + strlen str * img.stride > img.s
  · rw [if_pos h]
    exact ⟨_, rfl⟩
  · rw [if_neg h, hrun]
    simp only [hrun2]
    split
    · exact ⟨_, rfl⟩
    · exact ⟨_, rfl⟩

/-- C23.  Termination of the codec with `stride ≥ 1`: every call of `hide`
and every call of `recover` ends; each of the three loops, entered at index
`i`, ends within `s - i` iterations (the index grows by `stride ≥ 1` with
every iteration), the second loop of `hide` within one more; so once the
index has reached `s` that loop runs at most one iteration. -/
theorem codec_terminates (img : SteganographicImage) (str : List Nat)
    (hstride : 1 ≤ img.stride) :
    (∃ r, hide img str = some r)
    ∧ (∃ out, recover img = some out)
    ∧ (∀ rgb i bit c str1,
        ∃ res, hideLoop img.stride img.s (img.s - i + 1) rgb i bit c str1 = some res)
    ∧ (∀ rgb i j, ∃ rgb1, sentinelLoop img.stride img.s (img.s - i + 2) rgb i j = some rgb1)
    ∧ (∀ rgb i j, img.s ≤ i → ∃ rgb1, sentinelLoop img.stride img.s 2 rgb i j = some rgb1)
    ∧ (∀ rgb i bit c acc,
        ∃ out, recoverLoop rgb img.stride img.s (img.s - i + 1) i bit c acc = some out) := by
  refine ⟨hide_returns img str hstride, ?_, ?_, ?_, ?_, ?_⟩
  · show ∃ out, recoverLoop img.rgb img.stride img.s (img.s + 9) img.start 0 0 [] = some out
    exact recoverLoop_terminates img.rgb img.stride img.s hstride _ _ _ _ _ (by omega)
  · intro rgb i bit c str1
    exact hideLoop_terminates img.stride img.s hstride _ rgb i bit c str1 (Nat.le_refl _)
  · intro rgb i j
    obtain ⟨rgb1, h, _⟩ := sentinelLoop_run img.stride img.s hstride (img.s - i + 2) rgb i j
      (by split <;> omega)
    exact ⟨rgb1, h⟩
  · intro rgb i j hi
    obtain ⟨rgb1, h, _⟩ := sentinelLoop_run img.stride img.s hstride 2 rgb i j
      (by split <;> omega)
    exact ⟨rgb1, h⟩
  · intro rgb i bit c acc
    exact recoverLoop_terminates rgb img.stride img.s hstride _ i bit c acc (Nat.le_refl _)

/-- The termination of C23 for a carrier of 20 bytes, `start = 1`,
`stride = 2` and the payload `"AB"`. -/
theorem codec_terminates_witness :
    (∃ r, hide ⟨1, 2, 20, fun _ => 255⟩ [65, 66] = some r)
    ∧ (∃ out, recover ⟨1, 2, 20, fun _ => 255⟩ = some out)
    ∧ (∀ rgb i bit c str1, ∃ res, hideLoop 2 20 (20 - i + 1) rgb i bit c str1 = some res)
    ∧ (∀ rgb i j, ∃ rgb1, sentinelLoop 2 20 (20 - i + 2) rgb i j = some rgb1)
    ∧ (∀ rgb i j, 20 ≤ i → ∃ rgb1, sentinelLoop 2 20 2 rgb i j = some rgb1)
    ∧ (∀ rgb i bit c acc, ∃ out, recoverLoop rgb 2 20 (20 - i + 1) i bit c acc = some out) :=
  codec_terminates ⟨1, 2, 20, fun _ => 255⟩ [65, 66] (by decide)

/-- C24.  `destroy` changes the secret buffer only: the password and the key
store after it are those before it, and the password an `unlock` stored is
still held after a `destroy` that follows. -/
theorem destroy_keeps_password_and_keys (r : GrailRepository)
    (decrypt_file : String → String → List Nat) (password area : String) :
    (destroy r).password = r.password
    ∧ (destroy r).siteKeys = r.siteKeys
    ∧ (destroy (unlock decrypt_file r password area).1).password = password :=
  ⟨rfl, rfl, rfl⟩

theorem generate_eq_of_length (rbe : Nat → Nat × Nat) :
    ∀ (l1 l2 : List Nat) (st : Nat), l1.length = l2.length →
      generate rbe st l1 = generate rbe st l2
  | [], [], _, _ => rfl
  | [], _ :: _, _, h => by simp at h
  | _ :: _, [], _, h => by simp at h
  | _ :: r1, _ :: r2, st, h => by
    simp only [generate]
    rw [generate_eq_of_length rbe r1 r2 _ (by simpa using h)]

/-- C25.  `scramble` is deterministic and independent of its input: for two
repository states whose buffers have the same length, whatever their
contents and whatever the area arguments, the buffers after `scramble` are
equal; so a `scramble` after a `scramble` leaves the buffer of the first.
Every call starts the generator from its default state `seed`. -/
theorem scramble_input_independent (rbe : Nat → Nat × Nat) (seed : Nat)
    (r1 r2 : GrailRepository) (area1 area2 : String)
    (h : r1.bytes.length = r2.bytes.length) :
    (scramble rbe seed r1 area1).bytes = (scramble rbe seed r2 area2).bytes
    ∧ (scramble rbe seed (scramble rbe seed r1 area1) area2).bytes
        = (scramble rbe seed r1 area1).bytes := by
  constructor
  · exact generate_eq_of_length rbe _ _ seed h
  · exact generate_eq_of_length rbe _ _ seed (generate_length rbe _ _)

/-- The claim C25 for the buffers `[1, 2, 3]` and `[7, 8, 9]` and a generator
that counts up from 5. -/
theorem scramble_input_independent_witness :
    (scramble (fun st => (st % 256, st + 1)) 5 ⟨[1, 2, 3], "a", []⟩ "x").bytes
      = (scramble (fun st => (st % 256, st + 1)) 5 ⟨[7, 8, 9], "b", []⟩ "y").bytes
    ∧ (scramble (fun st => (st % 256, st + 1)) 5
        (scramble (fun st => (st % 256, st + 1)) 5 ⟨[1, 2, 3], "a", []⟩ "x") "y").bytes
      = (scramble (fun st => (st % 256, st + 1)) 5 ⟨[1, 2, 3], "a", []⟩ "x").bytes :=
  scramble_input_independent (fun st => (st % 256, st + 1)) 5 ⟨[1, 2, 3], "a", []⟩
    ⟨[7, 8, 9], "b", []⟩ "x" "y" (by decide)

/-! ## Theorems: `recover` after `hide`, whatever fits -/

/-- With `stride ≥ 1` the slots below the bound are those with a number below
`⌈(s - start) / stride⌉`. -/
theorem lt_slotCount_iff (start stride s j : Nat) (hstride : 1 ≤ stride) :
    start + j * stride < s ↔ j < (s - start + stride - 1) / stride := by
  rw [Nat.lt_iff_add_one_le, Nat.lt_iff_add_one_le, Nat.le_div_iff_mul_le (by omega),
    Nat.add_mul, Nat.one_mul]
  omega

/-- A call of `hide` that does not throw, with `stride ≥ 1` and `M` slots
below the bound: afterwards slot `j` holds payload bit `j` when the payload
has such a bit, and a zero bit otherwise. -/
theorem hide_run_slots (img : SteganographicImage) (str : List Nat) (hstride : 1 ≤ img.stride)
    (M : Nat) (hM : ∀ j, img.start + j * img.stride < img.s ↔ j < M)
    (hacc : ¬ (img.start + strlen str * img.stride > img.s)) :
    ∃ r, hide img str = some r ∧ r.threw = false
      ∧ r.img.start = img.start ∧ r.img.stride = img.stride ∧ r.img.s = img.s
      ∧ ∀ j, j < M → r.img.rgb (img.start + j * img.stride) % 2
          = if j < 8 * strlen str then payloadBit str j else 0 := by
  obtain ⟨rgb1, hrun, hbits, hframe⟩ := hideLoop_from_start img.stride img.s hstride str
    (8 * str.length + 1) img.rgb img.start M hM (by have := strlen_le_length str; omega)
  by_cases hfit : 8 * strlen str ≤ M
  · have hmin : min (8 * strlen str) M = 8 * strlen str := by omega
    rw [hmin] at hrun hbits hframe
    rw [Nat.mul_div_cancel_left _ (by omega : 0 < 8), getD_strlen] at hrun
    obtain ⟨rgb2, hrun2, hbits2, hframe2⟩ := sentinelLoop_run img.stride img.s hstride
      (img.s + 2) rgb1 (img.start + 8 * strlen str * img.stride) 0 (by simp)
    refine ⟨⟨false, { img with rgb := rgb2 }⟩, ?_, rfl, rfl, rfl, rfl, ?_⟩
    · unfold hide
      rw [if_neg hacc, hrun]
      simp only [if_true, hrun2]
    · intro j hj
      show rgb2 _ % 2 = _
      by_cases hlt : j < 8 * strlen str
      · have hlt2 : j * img.stride < 8 * strlen str * img.stride :=
          Nat.mul_lt_mul_of_pos_right hlt (by omega)
        rw [if_pos hlt, hframe2 _ (by intro k; omega), hbits j hlt,
          putLsb_mod_two _ _ (payloadBit_lt_two str j)]
      · obtain ⟨d, rfl⟩ : ∃ d, j = 8 * strlen str + d := ⟨j - 8 * strlen str, by omega⟩
        have e : img.start + (8 * strlen str + d) * img.stride
            = img.start + 8 * strlen str * img.stride + d * img.stride := by
          rw [Nat.add_mul]; omega
        have hs := (hM (8 * strlen str + d)).2 hj
        rw [if_neg hlt]
        rw [e] at hs ⊢
        rw [hbits2 d hs, and_254_mod_two]
  · have hmin : min (8 * strlen str) M = M := by omega
    rw [hmin] at hrun hbits hframe
    have hc : str.getD (M / 8) 0 ≠ 0 := getD_ne_zero_of_lt_strlen str _ (by omega)
    refine ⟨⟨false, { img with rgb := rgb1 }⟩, ?_, rfl, rfl, rfl, rfl, ?_⟩
    · unfold hide
      rw [if_neg hacc, hrun]
      simp only [hc, if_false]
    · intro j hj
      show rgb1 _ % 2 = _
      rw [if_pos (by omega), hbits j hj, putLsb_mod_two _ _ (payloadBit_lt_two str j)]

set_option maxRecDepth 100000 in
theorem decodeMsb_bits_of_byte :
    ∀ v < 256, decodeMsb ((List.range 8).map (fun t => (v >>> (7 - t)) &&& 1)) = v := by
  decide

/-- The bytes the extraction contract yields for slots that hold the bits of
the zero-free bytes `q` followed by zero bits: from byte number `j` on, with
`m` slots left, they are the next `m / 8` bytes of `q`, as far as `q` goes. -/
theorem extract_payload_slots (q : List Nat) (hq : ∀ b ∈ q, b ≠ 0 ∧ b < 256) :
    ∀ m j, j ≤ q.length →
      ((groups8 ((List.range' (8 * j) m).map
          (fun i => if i < 8 * q.length then payloadBit q i else 0))).map decodeMsb).takeWhile
        (fun v => decide (v ≠ 0))
      = (q.drop j).take (m / 8) := by
  intro m
  induction m using Nat.strong_induction_on with
  | _ m ih =>
    intro j hj
    by_cases hm : m < 8
    · rw [groups8_short _ (by simpa using hm)]
      have : m / 8 = 0 := by omega
      simp [this]
    · obtain ⟨m1, rfl⟩ : ∃ m1, m = m1 + 8 := ⟨m - 8, by omega⟩
      have hdiv : (m1 + 8) / 8 = m1 / 8 + 1 := by omega
      have hnext : 8 * j + 8 = 8 * (j + 1) := by omega
      rw [rangeFrom_eight, hdiv]
      simp only [List.map_cons, groups8, List.takeWhile_cons]
      have hgroup : ∀ g : Nat → Nat,
          [g (8 * j), g (8 * j + 1), g (8 * j + 2), g (8 * j + 3), g (8 * j + 4), g (8 * j + 5),
            g (8 * j + 6), g (8 * j + 7)] = (List.range 8).map (fun t => g (8 * j + t)) := by
        intro g; rfl
      rw [hgroup (fun i => if i < 8 * q.length then payloadBit q i else 0)]
      by_cases hjlt : j < q.length
      · have hget : q.getD j 0 = q[j] := by
          rw [List.getD_eq_getElem?_getD, List.getElem?_eq_getElem hjlt]
          rfl
        have hmem := hq q[j] (List.getElem_mem _)
        have hlist : (List.range 8).map
            (fun t => if 8 * j + t < 8 * q.length then payloadBit q (8 * j + t) else 0)
            = (List.range 8).map (fun t => (q[j] >>> (7 - t)) &&& 1) := by
          apply List.map_congr_left
          intro t ht
          rw [List.mem_range] at ht
          rw [if_pos (by omega)]
          unfold payloadBit
          have e1 : (8 * j + t) / 8 = j := by omega
          have e2 : (8 * j + t) % 8 = t := by omega
          rw [e1, e2, hget]
        rw [hlist, decodeMsb_bits_of_byte _ hmem.2, hnext, ih m1 (by omega) (j + 1) (by omega)]
        simp only [ne_eq, hmem.1, not_false_eq_true, decide_True, if_true]
        rw [List.drop_eq_getElem_cons hjlt, List.take_succ_cons]
      · have hlist : (List.range 8).map
            (fun t => if 8 * j + t < 8 * q.length then payloadBit q (8 * j + t) else 0)
            = (List.range 8).map (fun _ => 0) := by
          apply List.map_congr_left
          intro t _
          rw [if_neg (by omega)]
        have hdrop : q.drop j = [] := List.drop_eq_nil_of_le (by omega)
        rw [hlist, hdrop]
        rfl

/-- A call of `hide` that does not throw, for `stride ≥ 1` and a zero-free
payload of bytes, followed by `recover`: the bytes recovered are the first
`M / 8` bytes of the payload, as far as it goes, `M` the number of slots. -/
theorem recover_hide_take_slots (img : SteganographicImage) (p : List Nat)
    (hstride : 1 ≤ img.stride) (hp : ∀ b ∈ p, b ≠ 0 ∧ b < 256)
    (M : Nat) (hM : ∀ j, img.start + j * img.stride < img.s ↔ j < M)
    (hacc : ¬ (img.start + p.length * img.stride > img.s)) :
    ∃ r, hide img p = some r ∧ r.threw = false ∧ recover r.img = some (p.take (M / 8)) := by
  have hlen : strlen p = p.length := strlen_eq_length p (fun b hb => (hp b hb).1)
  obtain ⟨r, hr, hthrew, hstart, hstr, hs, hbits⟩ := hide_run_slots img p hstride M hM
    (by rw [hlen]; exact hacc)
  refine ⟨r, hr, hthrew, ?_⟩
  rw [hlen] at hbits
  have hlo : M = 0 ∨ img.start + (0 + M - 1) * img.stride < img.s := by
    by_cases h0 : M = 0
    · left; exact h0
    · right; exact (hM _).2 (by omega)
  have hhi : img.s ≤ img.start + (0 + M) * img.stride := by
    have := (hM M).not.2 (by omega)
    rw [Nat.zero_add]
    omega
  have hk : M ≤ img.s := by
    by_contra hgt
    have h1 := (hM img.s).2 (by omega)
    have h2 : img.s * 1 ≤ img.s * img.stride := Nat.mul_le_mul_left _ hstride
    omega
  have hrec := recoverLoop_slots r.img.rgb img.start img.stride img.s M 0 (img.s + 9) []
    hlo hhi (by omega)
  have hmap : (List.range' 0 M).map (fun k => r.img.rgb (img.start + k * img.stride) % 2)
      = (List.range' (8 * 0) M).map
        (fun i => if i < 8 * p.length then payloadBit p i else 0) := by
    apply List.map_congr_left
    intro j hj
    rw [List.mem_range'_1] at hj
    exact hbits j (by omega)
  rw [hmap, extract_payload_slots p hp _ 0 (by omega)] at hrec
  unfold recover
  rw [hstart, hstr, hs]
  simpa using hrec

theorem recover_hide_take (img : SteganographicImage) (p : List Nat) (hstride : 1 ≤ img.stride)
    (hp : ∀ b ∈ p, b ≠ 0 ∧ b < 256)
    (hacc : ¬ (img.start + p.length * img.stride > img.s)) :
    ∃ r, hide img p = some r ∧ r.threw = false
      ∧ recover r.img
        = some (p.take ((img.s - img.start + img.stride - 1) / img.stride / 8)) :=
  recover_hide_take_slots img p hstride hp _
    (fun j => lt_slotCount_iff img.start img.stride img.s j hstride) hacc

/-- C22.  `recover` after a `hide` that does not throw, for `stride ≥ 1` and a
zero-free payload `p` of bytes: it returns the first `min (len p) (k / 8)`
bytes of `p`, where `k = ⌈(s - start) / stride⌉` is the number of slots.  So it
returns `p` as soon as the `8 * len p` payload bits fit, and fewer than
`len p` bytes, a proper initial part of `p`, when they do not. -/
theorem recover_after_hide_prefix (img : SteganographicImage) (p : List Nat)
    (hstride : 1 ≤ img.stride) (hp : ∀ b ∈ p, b ≠ 0 ∧ b < 256)
    (hacc : ¬ (img.start + p.length * img.stride > img.s)) :
    ∃ r, hide img p = some r ∧ r.threw = false
      ∧ recover r.img = some (p.take
          (min p.length ((img.s - img.start + img.stride - 1) / img.stride / 8)))
      ∧ (8 * p.length ≤ (img.s - img.start + img.stride - 1) / img.stride →
          recover r.img = some p)
      ∧ (¬ (8 * p.length ≤ (img.s - img.start + img.stride - 1) / img.stride) →
          ∃ out, recover r.img = some out ∧ out.length < p.length ∧ out <+: p) := by
  obtain ⟨r, hr, hthrew, hrec⟩ := recover_hide_take img p hstride hp hacc
  have htake : p.take (min p.length ((img.s - img.start + img.stride - 1) / img.stride / 8))
      = p.take ((img.s - img.start + img.stride - 1) / img.stride / 8) := by
    by_cases h : p.length ≤ (img.s - img.start + img.stride - 1) / img.stride / 8
    · rw [Nat.min_eq_left h, List.take_of_length_le h, List.take_of_length_le (Nat.le_refl _)]
    · rw [Nat.min_eq_right (by omega)]
  refine ⟨r, hr, hthrew, by rw [htake]; exact hrec, ?_, ?_⟩
  · intro hfit
    rw [hrec, List.take_of_length_le (by omega)]
  · intro hfit
    refine ⟨_, hrec, ?_, List.take_prefix _ _⟩
    rw [List.length_take]
    omega

/-- The claim C22 at the payload `"AB"` with `start = 0`, `stride = 1` and a
carrier bound of 12: `hide` does not throw, 12 slots take one byte and a
half, and the first byte comes back. -/
theorem recover_after_hide_prefix_witness :
    ∃ r, hide ⟨0, 1, 12, fun _ => 255⟩ [65, 66] = some r ∧ r.threw = false
      ∧ recover r.img = some ([65, 66].take
          (min [65, 66].length ((12 - 0 + 1 - 1) / 1 / 8)))
      ∧ (8 * [65, 66].length ≤ (12 - 0 + 1 - 1) / 1 → recover r.img = some [65, 66])
      ∧ (¬ (8 * [65, 66].length ≤ (12 - 0 + 1 - 1) / 1) →
          ∃ out, recover r.img = some out ∧ out.length < [65, 66].length ∧ out <+: [65, 66]) :=
  recover_after_hide_prefix ⟨0, 1, 12, fun _ => 255⟩ [65, 66] (by decide) (by decide)
    (by decide)

/-! ## Theorems: `Stats1D` -/

/-- C26 (the code at a failing input).  The data `1, 2, 3, 4`, then
`setQuantileAlgorithm(R1)`, then `getSummary()`: the summary has `q1 = 5/4`,
`median = 5/2` and `q3 = 15/4`, the quantiles of `r6`, the algorithm the
constructor put in `defaultQuantile`; the quantiles of `r1`, the algorithm
set, are `1`, `2` and `3`. -/
theorem getSummary_ignores_setQuantileAlgorithm :
    (getSummary (setQuantileAlgorithm
        (newStats1D [1, 2, 3, 4] false ⟨0, 0, 0, 0, 0⟩ QuantileAlgorithm.R6)
        QuantileAlgorithm.R1)).1
      = ⟨1, 4, 5 / 4, 15 / 4, 5 / 2⟩
    ∧ r6 [1, 2, 3, 4] (1 / 4) = 5 / 4 ∧ r6 [1, 2, 3, 4] (1 / 2) = 5 / 2
    ∧ r6 [1, 2, 3, 4] (3 / 4) = 15 / 4
    ∧ r1 [1, 2, 3, 4] (1 / 4) = 1 ∧ r1 [1, 2, 3, 4] (1 / 2) = 2
    ∧ r1 [1, 2, 3, 4] (3 / 4) = 3 := by
  decide!

theorem mapFind_insert_or_assign (key : ℚ) (value : Nat) :
    ∀ (map : List (ℚ × Nat)) (k : ℚ),
      mapFind (insert_or_assign map key value) k
        = if k = key then some value else mapFind map k
  | [], k => by
    by_cases h : k = key
    · subst h; simp [insert_or_assign, mapFind]
    · have h2 : ¬ key = k := fun e => h e.symm
      simp [insert_or_assign, mapFind, h, h2]
  | e :: rest, k => by
    unfold insert_or_assign
    by_cases he : e.1 = key
    · by_cases h : k = key
      · subst h; simp [he, mapFind]
      · have h2 : ¬ key = k := fun e => h e.symm
        have h3 : ¬ e.1 = k := by rw [he]; exact h2
        simp [he, mapFind, h, h2, List.find?_cons]
    · have ih := mapFind_insert_or_assign key value rest k
      by_cases hk : e.1 = k
      · have h : ¬ k = key := by rw [← hk]; exact he
        simp [he, mapFind, hk, h, List.find?_cons]
      · simp only [he, if_false]
        unfold mapFind at ih ⊢
        rw [List.find?_cons_of_neg _ (by simpa using hk), ih,
          List.find?_cons_of_neg _ (by simpa using hk)]

theorem mem_keys_insert_or_assign (key : ℚ) (value : Nat) :
    ∀ (map : List (ℚ × Nat)) (k : ℚ),
      k ∈ (insert_or_assign map key value).map Prod.fst ↔ k = key ∨ k ∈ map.map Prod.fst
  | [], k => by simp [insert_or_assign]
  | e :: rest, k => by
    unfold insert_or_assign
    by_cases he : e.1 = key
    · simp only [he, if_true, List.map_cons, List.mem_cons]
      tauto
    · have ih := mem_keys_insert_or_assign key value rest k
      simp only [he, if_false, List.map_cons, List.mem_cons, ih]
      tauto

theorem nodup_keys_insert_or_assign (key : ℚ) (value : Nat) :
    ∀ map : List (ℚ × Nat), (map.map Prod.fst).Nodup →
      ((insert_or_assign map key value).map Prod.fst).Nodup
  | [], _ => by simp [insert_or_assign]
  | e :: rest, h => by
    unfold insert_or_assign
    rw [List.map_cons, List.nodup_cons] at h
    by_cases he : e.1 = key
    · simp only [he, if_true, List.map_cons, List.nodup_cons]
      rw [← he]
      exact h
    · simp only [he, if_false, List.map_cons, List.nodup_cons]
      refine ⟨?_, nodup_keys_insert_or_assign key value rest h.2⟩
      rw [mem_keys_insert_or_assign]
      intro hmem
      rcases hmem with hmem | hmem
      · exact he hmem
      · exact h.1 hmem

theorem mem_iff_mapFind : ∀ (map : List (ℚ × Nat)) (k : ℚ) (c : Nat),
    (map.map Prod.fst).Nodup → ((k, c) ∈ map ↔ mapFind map k = some c)
  | [], k, c, _ => by simp [mapFind]
  | e :: rest, k, c, h => by
    rw [List.map_cons, List.nodup_cons] at h
    have ih := mem_iff_mapFind rest k c h.2
    by_cases hk : e.1 = k
    · have hnot : ∀ c1, (k, c1) ∉ rest := by
        intro c1 hmem
        apply h.1
        rw [hk]
        exact List.mem_map.2 ⟨(k, c1), hmem, rfl⟩
      obtain ⟨e1, e2⟩ := e
      simp only at hk
      subst hk
      simp only [List.mem_cons, Prod.mk.injEq, true_and, mapFind, List.find?_cons, decide_True,
        Option.map_some', Option.some.injEq]
      constructor
      · intro hc
        rcases hc with hc | hc
        · exact hc.symm
        · exact absurd hc (hnot c)
      · intro hc
        left; exact hc.symm
    · have hne : (k, c) ≠ e := by
        intro heq
        apply hk
        rw [← heq]
      unfold mapFind at ih ⊢
      rw [List.find?_cons_of_neg _ (by simpa using hk), ← ih, List.mem_cons]
      constructor
      · intro hc
        rcases hc with hc | hc
        · exact absurd hc hne
        · exact hc
      · intro hc
        right; exact hc

/-- The first loop of `getModes` after the elements `done`: the map holds the
number of occurrences of every element seen, and `biggest_mode` is the
largest of them. -/
theorem getModesCount_spec :
    ∀ (rest done : List ℚ) (map : List (ℚ × Nat)) (big : Nat),
      (map.map Prod.fst).Nodup →
      (∀ k, mapFind map k = if done.count k = 0 then none else some (done.count k)) →
      (∀ k, done.count k ≤ big) → 1 ≤ big → (done = [] → big = 1) →
      (done ≠ [] → ∃ k, k ∈ done ∧ done.count k = big) →
      ((getModesCount rest map big).1.map Prod.fst).Nodup
      ∧ (∀ k, mapFind (getModesCount rest map big).1 k
          = if (done ++ rest).count k = 0 then none else some ((done ++ rest).count k))
      ∧ (∀ k, (done ++ rest).count k ≤ (getModesCount rest map big).2)
      ∧ (done ++ rest ≠ [] →
          ∃ k, k ∈ done ++ rest ∧ (done ++ rest).count k = (getModesCount rest map big).2)
  | [], done, map, big, hnd, hfind, hle, _, _, hatt => by
    simp only [getModesCount, List.append_nil]
    exact ⟨hnd, hfind, hle, hatt⟩
  | num :: rest, done, map, big, hnd, hfind, hle, hbig, hempty, hatt => by
    have htmp : (match mapFind map num with
        | some count => count + 1
        | none => 1) = done.count num + 1 := by
      rw [hfind num]
      by_cases h0 : done.count num = 0
      · simp [h0]
      · simp [h0]
    have hcount : ∀ k, (done ++ [num]).count k
        = if k = num then done.count num + 1 else done.count k := by
      intro k
      rw [List.count_append, List.count_singleton]
      by_cases hk : k = num
      · subst hk; simp
      · have hk2 : ¬ num = k := fun e => hk e.symm
        simp [hk, hk2]
    have happ : done ++ num :: rest = (done ++ [num]) ++ rest := by simp
    unfold getModesCount
    simp only [htmp]
    rw [happ]
    apply getModesCount_spec rest (done ++ [num])
    · exact nodup_keys_insert_or_assign num _ map hnd
    · intro k
      rw [mapFind_insert_or_assign, hcount k]
      by_cases hk : k = num
      · simp [hk]
      · simp only [hk, if_false]
        exact hfind k
    · intro k
      rw [hcount k]
      by_cases hk : k = num
      · simp only [hk, if_true]
        split <;> omega
      · simp only [hk, if_false]
        have := hle k
        split <;> omega
    · split <;> omega
    · intro h
      simp at h
    · intro _
      by_cases hgt : done.count num + 1 > big
      · refine ⟨num, by simp, ?_⟩
        rw [hcount num, if_pos rfl, if_pos hgt]
      · rw [if_neg hgt]
        by_cases hd : done = []
        · have hb := hempty hd
          subst hd
          refine ⟨num, by simp, ?_⟩
          rw [hcount num, if_pos rfl]
          simp [hb]
        · obtain ⟨k, hk, hkc⟩ := hatt hd
          have hne : k ≠ num := by
            intro e
            subst e
            omega
          refine ⟨k, by simp [hk], ?_⟩
          rw [hcount k, if_neg hne, hkc]

theorem getModesCollect_eq : ∀ (map : List (ℚ × Nat)) (big : Nat) (modes : List ℚ),
    getModesCollect map big modes
      = modes ++ (map.filter (fun e => decide (e.2 = big))).map Prod.fst
  | [], _, modes => by simp [getModesCollect]
  | e :: rest, big, modes => by
    unfold getModesCollect
    rw [getModesCollect_eq rest big]
    by_cases h : e.2 = big
    · simp [h, List.filter_cons]
    · simp [h, List.filter_cons]

/-- A call of `getModes` on an object whose member `modes` is empty: the
vector returned has no value twice and holds exactly the values of
`sorted_data` that occur most often. -/
theorem getModes_spec (st : Stats1D) (hmodes : st.modes = []) :
    (getModes st).1.Nodup
    ∧ ∀ v, v ∈ (getModes st).1
        ↔ v ∈ st.sorted_data ∧ ∀ w ∈ st.sorted_data, st.sorted_data.count w ≤ st.sorted_data.count v := by
  obtain ⟨hnd, hfind, hle, hatt⟩ := getModesCount_spec st.sorted_data [] [] 1 (by simp)
    (by intro k; simp [mapFind]) (by intro k; simp) (by omega) (fun _ => rfl)
    (fun h => absurd rfl h)
  simp only [List.nil_append] at hfind hle hatt
  have hres : (getModes st).1
      = ((getModesCount st.sorted_data [] 1).1.filter
          (fun e => decide (e.2 = (getModesCount st.sorted_data [] 1).2))).map Prod.fst := by
    unfold getModes
    rw [hmodes]
    simp [getModesCollect_eq]
  rw [hres]
  constructor
  · exact List.Nodup.sublist (List.Sublist.map _ (List.filter_sublist _)) hnd
  · intro v
    rw [List.mem_map]
    constructor
    · rintro ⟨⟨k, c⟩, hmem, rfl⟩
      rw [List.mem_filter] at hmem
      obtain ⟨hmem, hc⟩ := hmem
      simp only [decide_eq_true_eq] at hc
      have hf := (mem_iff_mapFind _ k c hnd).1 hmem
      rw [hfind k] at hf
      by_cases h0 : st.sorted_data.count k = 0
      · simp [h0] at hf
      · simp only [h0, if_false, Option.some.injEq] at hf
        show k ∈ st.sorted_data
          ∧ ∀ w ∈ st.sorted_data, st.sorted_data.count w ≤ st.sorted_data.count k
        refine ⟨List.count_pos_iff.1 (by omega), ?_⟩
        intro w _
        have := hle w
        omega
    · rintro ⟨hv, hmax⟩
      have hne : st.sorted_data ≠ [] := List.ne_nil_of_mem hv
      obtain ⟨k, hk, hkc⟩ := hatt hne
      have h1 := hmax k hk
      have h2 := hle v
      have hpos : 0 < st.sorted_data.count v := List.count_pos_iff.2 hv
      refine ⟨(v, st.sorted_data.count v), ?_, rfl⟩
      rw [List.mem_filter]
      refine ⟨(mem_iff_mapFind _ v _ hnd).2 ?_, ?_⟩
      · rw [hfind v, if_neg (by omega)]
      · simp only [decide_eq_true_eq]
        omega

theorem stored_data_perm (data : List ℚ) (sorted : Bool) :
    (if sorted then data else sort data).Perm data := by
  cases sorted
  · exact List.perm_insertionSort _ data
  · exact List.Perm.refl data

theorem getModes_of_data (st : Stats1D) (data : List ℚ) (hmodes : st.modes = [])
    (hperm : st.sorted_data.Perm data) :
    (getModes st).1.Nodup
    ∧ ∀ v, v ∈ (getModes st).1 ↔ v ∈ data ∧ ∀ w ∈ data, data.count w ≤ data.count v := by
  obtain ⟨hnd, hmem⟩ := getModes_spec st hmodes
  refine ⟨hnd, fun v => ?_⟩
  rw [hmem v, hperm.mem_iff]
  constructor
  · rintro ⟨hv, hmax⟩
    refine ⟨hv, fun w hw => ?_⟩
    have := hmax w (hperm.mem_iff.2 hw)
    rwa [hperm.count_eq, hperm.count_eq] at this
  · rintro ⟨hv, hmax⟩
    refine ⟨hv, fun w hw => ?_⟩
    have := hmax w (hperm.mem_iff.1 hw)
    rwa [hperm.count_eq, hperm.count_eq]

theorem getModes_cached (st : Stats1D) (h : st.modes.length ≠ 0) :
    (getModes st).1 = st.modes := by
  unfold getModes
  rw [if_pos h]

theorem getModes_again (st : Stats1D) (hmodes : st.modes = []) :
    (getModes (getModes st).2).1 = (getModes st).1 := by
  have hst : (getModes st).2 = { st with modes := (getModes st).1 } := by
    unfold getModes
    simp [hmodes]
  by_cases h : (getModes st).1.length ≠ 0
  · rw [hst]
    exact getModes_cached _ h
  · have hnil : (getModes st).1 = [] := List.length_eq_zero.1 (by omega)
    have hsame : ({ st with modes := (getModes st).1 } : Stats1D) = st := by
      rw [hnil, ← hmodes]
    rw [hst, hsame]

/-- C27.  After `updateData` with a dataset, whatever the object held before,
and likewise on a newly constructed object, `getModes` returns a vector that
holds no value twice and holds exactly the values whose number of occurrences
in the dataset is maximal: the empty vector for the empty dataset, all the
values when every value occurs once.  A second call returns the same
vector. -/
theorem getModes_returns_modes (st : Stats1D) (data : List ℚ) (sorted : Bool)
    (fivenum0 : Summary) (quantile0 : QuantileAlgorithm) :
    ((getModes (updateData st data sorted)).1.Nodup
      ∧ ∀ v, v ∈ (getModes (updateData st data sorted)).1
          ↔ v ∈ data ∧ ∀ w ∈ data, data.count w ≤ data.count v)
    ∧ ((getModes (newStats1D data sorted fivenum0 quantile0)).1.Nodup
      ∧ ∀ v, v ∈ (getModes (newStats1D data sorted fivenum0 quantile0)).1
          ↔ v ∈ data ∧ ∀ w ∈ data, data.count w ≤ data.count v)
    ∧ (getModes (updateData st [] sorted)).1 = []
    ∧ (data.Nodup → ∀ v, v ∈ (getModes (updateData st data sorted)).1 ↔ v ∈ data)
    ∧ (getModes (getModes (updateData st data sorted)).2).1
        = (getModes (updateData st data sorted)).1 := by
  have hupd := getModes_of_data (updateData st data sorted) data rfl
    (stored_data_perm data sorted)
  refine ⟨hupd, getModes_of_data _ data rfl (stored_data_perm data sorted), ?_, ?_,
    getModes_again _ rfl⟩
  · have hnil := getModes_of_data (updateData st [] sorted) [] rfl (stored_data_perm [] sorted)
    apply List.eq_nil_iff_forall_not_mem.2
    intro v hv
    have := (hnil.2 v).1 hv
    simp at this
  · intro hnodup v
    rw [hupd.2 v]
    constructor
    · exact fun h => h.1
    · intro hv
      refine ⟨hv, fun w hw => ?_⟩
      rw [List.count_eq_one_of_mem hnodup hw, List.count_eq_one_of_mem hnodup hv]

end GrailGUI
